import Mathlib

/-!
Verification development for the bio-news-agent repository.

The Python sources are shallowly embedded: strings are lists of characters,
timestamps are integers, and each relevant function of the repository is
translated into an executable Lean definition.  Character-level operations
(lower-casing, whitespace, digit tests) are modelled on their ASCII fragment,
which is the fragment exercised by every input appearing in the theorems
below.  Where the Python standard library is involved (urllib parsing,
quoting, UTF-8 codecs) the corresponding CPython algorithms are translated
directly.
-/

namespace BioNews

/-- Strings are modelled as lists of characters. -/
abbrev Str := List Char

/-- Conversion from Lean string literals to the model type. -/
def str (s : String) : Str := s.toList

/-- Whitespace test used for Python str.strip / regex whitespace (ASCII fragment). -/
def isWs (c : Char) : Bool := c.isWhitespace

/-- ASCII lower-casing of one character (the fragment of Python str.lower used here). -/
def lowerC (c : Char) : Char := c.toLower

/-- ASCII lower-casing of a string. -/
def lowerS (s : Str) : Str := s.map lowerC

/-- Python str.strip(): drop leading and trailing whitespace. -/
def pyStrip (s : Str) : Str := ((s.dropWhile isWs).reverse.dropWhile isWs).reverse

/-- Python str.rstrip(chars): drop trailing characters belonging to the set. -/
def pyRstrip (cs : List Char) (s : Str) : Str :=
  (s.reverse.dropWhile (fun c => cs.contains c)).reverse

/-- Python str.lstrip(chars). -/
def pyLstrip (cs : List Char) (s : Str) : Str := s.dropWhile (fun c => cs.contains c)

/-- Python str.strip(chars) over a character set. -/
def pyStripSet (cs : List Char) (s : Str) : Str := pyRstrip cs (pyLstrip cs s)

/-- Split a string at the first character satisfying p; the second component
starts with that character (or is empty when no character satisfies p). -/
def breakOn (p : Char → Bool) : Str → Str × Str
  | [] => ([], [])
  | c :: cs =>
    if p c then ([], c :: cs)
    else
      let r := breakOn p cs
      (c :: r.1, r.2)

/-- Python str.split(sep) for a one-character separator. -/
def splitSep (sep : Char) : Str → List Str
  | [] => [[]]
  | c :: cs =>
    if c = sep then [] :: splitSep sep cs
    else
      match splitSep sep cs with
      | [] => [[c]]
      | h :: t => (c :: h) :: t

/-- Python sep.join(parts) for a one-character separator. -/
def joinSep (sep : Char) : List Str → Str
  | [] => []
  | [p] => p
  | p :: ps => p ++ sep :: joinSep sep ps

/-- leads a b holds when a is an initial run of b. -/
def leads : Str → Str → Bool
  | [], _ => true
  | _ :: _, [] => false
  | a :: as, b :: bs => a = b && leads as bs

/-- Python substring containment: hasSub n h models the expression n in h. -/
def hasSub (needle : Str) : Str → Bool
  | [] => needle.isEmpty
  | c :: cs => leads needle (c :: cs) || hasSub needle cs

/-- Ordered-dictionary insert: append v to the entry of k, or add a new entry
at the end (Python dict insertion order). -/
def insertG {V : Type} (d : List (Str × List V)) (k : Str) (v : V) : List (Str × List V) :=
  match d with
  | [] => [(k, [v])]
  | (k', vs) :: t => if k' = k then (k', vs ++ [v]) :: t else (k', vs) :: insertG t k v

/-- Group a pair list by key, preserving first-occurrence key order and the
input order of each key's values (Python dict-of-lists accumulation). -/
def groupPairs {V : Type} (l : List (Str × V)) : List (Str × List V) :=
  l.foldl (fun d kv => insertG d kv.1 kv.2) []

/-- Flatten a grouped list back to a pair list. -/
def flattenG {V : Type} (d : List (Str × List V)) : List (Str × V) :=
  d.flatMap (fun kv => kv.2.map (fun v => (kv.1, v)))

/-! UTF-8 codec and percent quoting, translated from CPython urllib/codecs. -/

/-- The U+FFFD replacement character. -/
def repl : Char := Char.ofNat 0xFFFD

/-- UTF-8 encoding of one character. -/
def utf8Encode (c : Char) : List Nat :=
  let n := c.toNat
  if n < 0x80 then [n]
  else if n < 0x800 then [0xC0 + n / 64, 0x80 + n % 64]
  else if n < 0x10000 then [0xE0 + n / 4096, 0x80 + n / 64 % 64, 0x80 + n % 64]
  else [0xF0 + n / 262144, 0x80 + n / 4096 % 64, 0x80 + n / 64 % 64, 0x80 + n % 64]

/-- UTF-8 encoding of a string as a byte list. -/
def utf8Str (s : Str) : List Nat := s.flatMap utf8Encode

/-- Continuation-byte test. -/
def contB (b : Nat) : Bool := decide (0x80 ≤ b) && decide (b < 0xC0)

/-- Constraint on the second byte of a three-byte sequence. -/
def cont3 (lead b : Nat) : Bool :=
  if lead = 0xE0 then decide (0xA0 ≤ b) && decide (b < 0xC0)
  else if lead = 0xED then decide (0x80 ≤ b) && decide (b < 0xA0)
  else contB b

/-- Constraint on the second byte of a four-byte sequence. -/
def cont4 (lead b : Nat) : Bool :=
  if lead = 0xF0 then decide (0x90 ≤ b) && decide (b < 0xC0)
  else if lead = 0xF4 then decide (0x80 ≤ b) && decide (b < 0x90)
  else contB b

/-- UTF-8 decoding with U+FFFD replacement following the maximal-subpart
policy of CPython's errors="replace" handler. -/
def utf8Decode : List Nat → Str
  | [] => []
  | b :: rest =>
    if b < 0x80 then Char.ofNat b :: utf8Decode rest
    else if b < 0xC2 then repl :: utf8Decode rest
    else if b < 0xE0 then
      match rest with
      | [] => [repl]
      | b2 :: r2 =>
        if contB b2 then Char.ofNat ((b - 0xC0) * 64 + (b2 - 0x80)) :: utf8Decode r2
        else repl :: utf8Decode (b2 :: r2)
    else if b < 0xF0 then
      match rest with
      | [] => [repl]
      | b2 :: r2 =>
        if cont3 b b2 then
          match r2 with
          | [] => [repl]
          | b3 :: r3 =>
            if contB b3 then
              Char.ofNat ((b - 0xE0) * 4096 + (b2 - 0x80) * 64 + (b3 - 0x80)) :: utf8Decode r3
            else repl :: utf8Decode (b3 :: r3)
        else repl :: utf8Decode (b2 :: r2)
    else if b < 0xF5 then
      match rest with
      | [] => [repl]
      | b2 :: r2 =>
        if cont4 b b2 then
          match r2 with
          | [] => [repl]
          | b3 :: r3 =>
            if contB b3 then
              match r3 with
              | [] => [repl]
              | b4 :: r4 =>
                if contB b4 then
                  Char.ofNat
                      ((b - 0xF0) * 262144 + (b2 - 0x80) * 4096 + (b3 - 0x80) * 64 + (b4 - 0x80))
                    :: utf8Decode r4
                else repl :: utf8Decode (b4 :: r4)
            else repl :: utf8Decode (b3 :: r3)
        else repl :: utf8Decode (b2 :: r2)
    else repl :: utf8Decode rest

/-- Upper-case hexadecimal digit for a value below 16. -/
def hexD (n : Nat) : Char :=
  match n with
  | 0 => '0' | 1 => '1' | 2 => '2' | 3 => '3' | 4 => '4'
  | 5 => '5' | 6 => '6' | 7 => '7' | 8 => '8' | 9 => '9'
  | 10 => 'A' | 11 => 'B' | 12 => 'C' | 13 => 'D' | 14 => 'E' | 15 => 'F'
  | _ => '0'

/-- Hexadecimal digit test, both cases, as in CPython's unquote table. -/
def isHexD (c : Char) : Bool :=
  (decide ('0' ≤ c) && decide (c ≤ '9')) || (decide ('A' ≤ c) && decide (c ≤ 'F'))
    || (decide ('a' ≤ c) && decide (c ≤ 'f'))

/-- Value of a hexadecimal digit. -/
def hexV (c : Char) : Nat :=
  if decide ('0' ≤ c) && decide (c ≤ '9') then c.toNat - 48
  else if decide ('A' ≤ c) && decide (c ≤ 'F') then c.toNat - 55
  else if decide ('a' ≤ c) && decide (c ≤ 'f') then c.toNat - 87
  else 0

/-- Bytes that urllib quote leaves unescaped: ASCII alphanumerics and _.-~ . -/
def safeB (b : Nat) : Bool :=
  (decide (48 ≤ b) && decide (b ≤ 57)) || (decide (65 ≤ b) && decide (b ≤ 90))
    || (decide (97 ≤ b) && decide (b ≤ 122)) || b = 95 || b = 46 || b = 45 || b = 126

/-- Per-byte encoding of quote_plus: safe bytes stay, space becomes +, the
rest is percent-escaped with upper-case hex. -/
def quoteByte (b : Nat) : Str :=
  if safeB b then [Char.ofNat b]
  else if b = 32 then ['+']
  else ['%', hexD (b / 16), hexD (b % 16)]

/-- Python urllib quote_plus with empty safe set, as used by urlencode. -/
def quotePlus (s : Str) : Str := (utf8Str s).flatMap quoteByte

/-- Image of one quoted byte after the plus-to-space replacement applied by
parse_qsl before unquoting. -/
def quoteByteM (b : Nat) : Str :=
  if safeB b then [Char.ofNat b]
  else if b = 32 then [' ']
  else ['%', hexD (b / 16), hexD (b % 16)]

/-- Character class of quote_plus output: safe characters, plus, percent and
hexadecimal digits. -/
def isQpChar (c : Char) : Bool := safeB c.toNat || c = '+' || c = '%' || isHexD c

/-- Scan a string into literal characters and percent-escaped bytes. -/
def tokenize : Str → List (Char ⊕ Nat)
  | '%' :: h1 :: h2 :: rest =>
    if isHexD h1 && isHexD h2 then Sum.inr (hexV h1 * 16 + hexV h2) :: tokenize rest
    else Sum.inl '%' :: tokenize (h1 :: h2 :: rest)
  | c :: rest => Sum.inl c :: tokenize rest
  | [] => []

/-- Rebuild a string from the token stream, decoding each maximal run of
escaped bytes as UTF-8 (pend holds the current run reversed). -/
def detok (pend : List Nat) : List (Char ⊕ Nat) → Str
  | [] => utf8Decode pend.reverse
  | Sum.inr b :: rest => detok (b :: pend) rest
  | Sum.inl c :: rest => utf8Decode pend.reverse ++ c :: detok [] rest

/-- Python urllib unquote: percent-decoding with UTF-8 replacement decoding. -/
def pyUnquote (s : Str) : Str := detok [] (tokenize s)

/-- Replace + by space, then unquote: the decoding parse_qsl applies to each
name and value. -/
def decodePart (s : Str) : Str :=
  pyUnquote (s.map (fun c => if c = '+' then ' ' else c))

/-! The urllib URL parsing functions used by collector.normalize_url. -/

/-- Characters allowed in a URL scheme. -/
def schemeChars : Str :=
  str ("abcdefghijklmnopqrstuvwxyzABCDEFGHIJKLMNOPQRSTUVWXYZ0123456789+-.")

/-- Test that a nonempty candidate scheme starts with an ASCII letter and
consists of scheme characters only. -/
def isSchemeName (s : Str) : Bool :=
  match s with
  | [] => false
  | c :: _ => (decide (c.toNat < 128) && c.isAlpha) && s.all (fun d => schemeChars.contains d)

/-- Scheme extraction of urlsplit; the scheme is lower-cased by urlsplit. -/
def splitScheme (u : Str) : Str × Str :=
  let r := breakOn (fun c => c = ':') u
  if !r.2.isEmpty && isSchemeName r.1 then (lowerS r.1, r.2.tail) else ([], u)

/-- Netloc extraction of urlsplit: after a leading //, everything up to the
first of / ? #. -/
def splitNetloc (u : Str) : Str × Str :=
  if u.take 2 = str ("//") then
    let r := breakOn (fun c => c = '/' || c = '?' || c = '#') (u.drop 2)
    (r.1, r.2)
  else ([], u)

/-- Python s.split(sep, 1): the part before the first sep and the part after
it (second part empty when sep is absent). -/
def splitFirst (sep : Char) (u : Str) : Str × Str :=
  let r := breakOn (fun c => c = sep) u
  (r.1, r.2.tail)

/-- Params split of urlparse: the part of the last path segment after its
first semicolon. -/
def splitParams (p : Str) : Str × Str :=
  let lastSeg := (p.reverse.takeWhile (fun c => c ≠ '/')).reverse
  let pre := p.take (p.length - lastSeg.length)
  let r := breakOn (fun c => c = ';') lastSeg
  if r.2 ≠ [] then (pre ++ r.1, r.2.tail) else (p, [])

/-- Result of urlsplit. -/
structure UrlSplit where
  scheme : Str
  netloc : Str
  path : Str
  query : Str
  fragment : Str
deriving Repr, DecidableEq

/-- Python urllib urlsplit (allow_fragments=True, no default scheme). -/
def urlsplitF (u : Str) : UrlSplit :=
  let s := splitScheme u
  let n := splitNetloc s.2
  let f := splitFirst '#' n.2
  let q := splitFirst '?' f.1
  ⟨s.1, n.1, q.1, q.2, f.2⟩

/-- Result of urlparse. -/
structure UrlParsed where
  scheme : Str
  netloc : Str
  path : Str
  params : Str
  query : Str
  fragment : Str
deriving Repr, DecidableEq

/-- Schemes for which urlparse separates params from the last path segment. -/
def usesParams : List Str :=
  [str (""), str ("ftp"), str ("hdl"), str ("prospero"), str ("http"), str ("imap"),
   str ("https"), str ("shttp"), str ("rtsp"), str ("rtsps"), str ("rtspu"), str ("sip"),
   str ("sips"), str ("mms"), str ("sftp"), str ("tel")]

/-- Python urllib urlparse. -/
def urlparseF (u : Str) : UrlParsed :=
  let s := urlsplitF u
  if usesParams.contains s.scheme ∧ hasSub (str (";")) s.path then
    let pp := splitParams s.path
    ⟨s.scheme, s.netloc, pp.1, pp.2, s.query, s.fragment⟩
  else ⟨s.scheme, s.netloc, s.path, [], s.query, s.fragment⟩

/-- Python urllib urlunparse restricted to the shape used by normalize_url. -/
def urlunparseF (scheme netloc path params query fragment : Str) : Str :=
  let p := if params ≠ [] then path ++ ';' :: params else path
  let u1 :=
    if netloc ≠ [] ∨ p.take 2 = str ("//") then
      str ("//") ++ netloc ++ (if p ≠ [] ∧ p.take 1 ≠ str ("/") then '/' :: p else p)
    else p
  let u2 := if scheme ≠ [] then scheme ++ ':' :: u1 else u1
  let u3 := if query ≠ [] then u2 ++ '?' :: query else u2
  if fragment ≠ [] then u3 ++ '#' :: fragment else u3

/-- Python urllib parse_qsl on one name=value field (keep_blank_values=True,
ampersand separator, non-strict). -/
def parsePair (nv : Str) : Option (Str × Str) :=
  if nv = [] then none
  else
    let r := breakOn (fun c => c = '=') nv
    match r.2 with
    | [] => some (decodePart nv, [])
    | _ :: v => some (decodePart r.1, decodePart v)

/-- Python urllib parse_qsl (keep_blank_values=True). -/
def parseQsl (qs : Str) : List (Str × Str) := (splitSep '&' qs).filterMap parsePair

/-- Python urllib parse_qs (keep_blank_values=True): parse_qsl grouped into
an insertion-ordered dictionary of value lists. -/
def parseQs (qs : Str) : List (Str × List Str) := groupPairs (parseQsl qs)

/-- Python urllib urlencode with doseq=True over a dict of string lists. -/
def urlencodeG (d : List (Str × List Str)) : Str :=
  joinSep '&' (d.flatMap (fun kv => kv.2.map (fun v => quotePlus kv.1 ++ '=' :: quotePlus v)))

/-- The tracking-parameter block list of collector._TRACKING_PARAMS. -/
def TRACKING : List Str :=
  [str ("utm_source"), str ("utm_medium"), str ("utm_campaign"), str ("utm_term"),
   str ("utm_content"), str ("ref"), str ("source"), str ("fbclid"), str ("gclid"),
   str ("mc_cid"), str ("mc_eid")]

/-- urlparse of the stripped input, as normalize_url computes it. -/
def normParsed (url : Str) : UrlParsed := urlparseF (pyStrip url)

/-- Scheme component of the normalized URL. -/
def normScheme (url : Str) : Str := lowerS (normParsed url).scheme

/-- Netloc component: lower-cased, with one leading www. label removed. -/
def normNetloc (url : Str) : Str :=
  let n := lowerS (normParsed url).netloc
  if n.take 4 = str ("www.") then n.drop 4 else n

/-- Path component: trailing slashes removed, case preserved. -/
def normPath (url : Str) : Str := pyRstrip ['/'] (normParsed url).path

/-- Grouped query parameters with block-listed names removed. -/
def filteredParams (url : Str) : List (Str × List Str) :=
  (parseQs (normParsed url).query).filter (fun kv => !(TRACKING.contains (lowerS kv.1)))

/-- Query component of the normalized URL. -/
def normQuery (url : Str) : Str :=
  if (normParsed url).query ≠ [] then
    if filteredParams url ≠ [] then urlencodeG (filteredParams url) else []
  else []

/-- collector.normalize_url: the URL normalization of the collector. -/
def normalizeUrl (url : Str) : Str :=
  urlunparseF (normScheme url) (normNetloc url) (normPath url) [] (normQuery url) []

/-! The headline item record and the pipeline stages. -/

/-- A headline item; category and blurb are optional dictionary fields. -/
structure Item where
  id : Str := []
  title : Str := []
  link : Str := []
  source : Str := []
  published : Int := 0
  category : Option Str := none
  blurb : Option Str := none
deriving Repr, DecidableEq

/-- The six-entry taxonomy of config.CATEGORIES. -/
def CATEGORIES : List Str :=
  [str ("Regulatory & FDA"), str ("Clinical & Research"), str ("Deals & Finance"),
   str ("Company News"), str ("Policy & Politics"), str ("Market Insights")]

/-- The company-name list of config.COMPANY_NAMES. -/
def COMPANY_NAMES : List Str :=
  [str ("pfizer"), str ("moderna"), str ("gilead"), str ("regeneron"), str ("amgen"),
   str ("biogen"), str ("vertex"), str ("abbvie"), str ("novartis"), str ("roche"),
   str ("merck"), str ("bms"), str ("bristol-myers"), str ("astrazeneca"), str ("sanofi"),
   str ("gsk"), str ("glaxosmithkline"), str ("lilly"), str ("eli lilly"),
   str ("johnson & johnson"), str ("j&j"), str ("takeda"), str ("bayer"),
   str ("novo nordisk"), str ("illumina"), str ("genentech")]

/-- Any-of substring test against a lower-cased title. -/
def containsAny (t : Str) (ws : List Str) : Bool := ws.any (fun w => hasSub w t)

/-- graph._keyword_categorize: deterministic keyword categorization fallback. -/
def keywordCategorize (title : Str) : Str :=
  let t := lowerS title
  if containsAny t [str ("fda"), str ("approve"), str ("reject"), str ("ema"),
      str ("regulatory")] then str ("Regulatory & FDA")
  else if containsAny t [str ("trial"), str ("phase"), str ("study"), str ("efficacy"),
      str ("therapy"), str ("research")] then str ("Clinical & Research")
  else if containsAny t [str ("partner"), str ("deal"), str ("raise"), str ("funding"),
      str ("$"), str ("acquisition"), str ("ipo"), str ("merger")] then str ("Deals & Finance")
  else if containsAny t [str ("layoff"), str ("cuts"), str ("ceo"), str ("executive"),
      str ("hire"), str ("appoint")] then str ("Company News")
  else if containsAny t [str ("trump"), str ("congress"), str ("medicare"), str ("medicaid"),
      str ("policy"), str ("legislation")] then str ("Policy & Politics")
  else if containsAny t [str ("market"), str ("spending"), str ("forecast"), str ("trend"),
      str ("billion"), str ("outlook")] then str ("Market Insights")
  else if COMPANY_NAMES.any (fun c => hasSub c t) then str ("Company News")
  else str ("Company News")

/-! The renderer (renderer.to_markdown). -/

/-- One rendered list line of the renderer: the stripped title, an optional
italic blurb inside the link text, the link and the source label. -/
def fmtLine (it : Item) : Str :=
  let t0 := pyStrip it.title
  let t :=
    match it.blurb with
    | some b => t0 ++ str (" — *") ++ b ++ str ("*")
    | none => t0
  str ("- [") ++ t ++ str ("](") ++ it.link ++ str (") — ") ++ it.source

/-- The sections dictionary: items grouped by category (default key Other),
in key first-occurrence order. -/
def sectionsOf (items : List Item) : List (Str × List Item) :=
  items.foldl (fun d it => insertG d (it.category.getD (str ("Other"))) it) []

/-- The predefined category order of the renderer. -/
def rendererBaseOrder : List Str :=
  [str ("Regulatory & FDA"), str ("Clinical & Research"), str ("Deals & Finance"),
   str ("Company News"), str ("Policy & Politics"), str ("Market Insights"), str ("Other")]

/-- The full category order: the predefined list followed by the remaining
section keys in insertion order. -/
def categoryOrderOf (secs : List (Str × List Item)) : List Str :=
  rendererBaseOrder ++ (secs.map (fun kv => kv.1)).filter
    (fun c => !(rendererBaseOrder.contains c))

/-- The line list built by to_markdown for a nonempty item list. -/
def toMarkdownLines (items : List Item) : List Str :=
  let secs := sectionsOf items
  str ("## Daily Biotech / Pharma Headlines\n") ::
    (categoryOrderOf secs).flatMap (fun cat =>
      match secs.find? (fun kv => kv.1 == cat) with
      | none => []
      | some kv => (str ("### ") ++ cat) :: kv.2.map fmtLine ++ [[]])

/-- renderer.to_markdown. -/
def toMarkdown (items : List Item) : Str :=
  if items = [] then str ("_No fresh biotech/pharma headlines in the last 24 h._")
  else joinSep '\n' (toMarkdownLines items)

/-! The filter node (graph.node_filter): stable descending sort and caps. -/

/-- Insert an item into a descending-sorted list, after all items with a
published timestamp at least as large (stable position). -/
def insDesc (x : Item) : List Item → List Item
  | [] => [x]
  | y :: ys => if x.published ≤ y.published then y :: insDesc x ys else x :: y :: ys

/-- Stable descending sort by published, as sorted(key=published, reverse=True). -/
def sortDesc (items : List Item) : List Item := items.foldl (fun acc x => insDesc x acc) []

/-- Test whether a source label is a papers source. -/
def isPapers (src : Str) : Bool := hasSub (str ("Papers")) src

/-- Increment the per-source counter of one source label
(source_counts[source] += 1 on the defaultdict). -/
def bump (sc : Str → Nat) (s0 : Str) : Str → Nat :=
  fun s => if s = s0 then sc s0 + 1 else sc s

/-- The cap loop of node_filter over the sorted items, carrying the per-source
counters and the admitted-papers counter; the counter of the source of a
non-source-capped item is bumped before the paper checks, as in the code. -/
def capsGo (maxPS paperLimit : Nat) : List Item → (Str → Nat) → Nat → List Item
  | [], _, _ => []
  | it :: rest, sc, pc =>
    if 0 < maxPS ∧ maxPS ≤ sc it.source then capsGo maxPS paperLimit rest sc pc
    else if isPapers it.source ∧ paperLimit ≤ pc then
      capsGo maxPS paperLimit rest (bump sc it.source) pc
    else if isPapers it.source then
      it :: capsGo maxPS paperLimit rest (bump sc it.source) (pc + 1)
    else it :: capsGo maxPS paperLimit rest (bump sc it.source) pc

/-- The cap portion of graph.node_filter applied to a deduplicated item list,
with MAX_ITEMS_PER_SOURCE and PAPER_LIMIT as parameters. -/
def nodeFilterCaps (maxPS paperLimit : Nat) (items : List Item) : List Item :=
  capsGo maxPS paperLimit (sortDesc items) (fun _ => 0) 0

/-- Modelled from the spec: the filterer module providing
filterer.deduplicate is absent from the inspected source (only its tests and
its import in graph.py exist); per spec 4.4 it collapses items sharing an id
into the one with the latest published timestamp and passes unique ids
through.  One fold step: replace the stored item of this id when the new one
is strictly later, append when the id is new. -/
def dedupStep (acc : List Item) (x : Item) : List Item :=
  if acc.any (fun y => y.id == x.id) then
    acc.map (fun y => if y.id = x.id ∧ y.published < x.published then x else y)
  else acc ++ [x]

/-- Modelled from the spec: filterer.deduplicate (see dedupStep). -/
def deduplicate (items : List Item) : List Item := items.foldl dedupStep []

/-! The shortify node (graph.node_shortify), with the LLM reply per batch
start index supplied by an oracle (none models a request failure or an empty
reply content). -/

/-- Test for the regex anchor of one or more digits followed by a dot. -/
def numbered (l : Str) : Bool :=
  let ds := l.takeWhile Char.isDigit
  !ds.isEmpty && ((l.drop ds.length).take 1 == ['.'])

/-- Strip the leading digits, the dot and following whitespace from a
numbered line. -/
def stripNum (l : Str) : Str := ((l.dropWhile Char.isDigit).drop 1).dropWhile isWs

/-- Parse an LLM reply into the numbered-line texts, as node_shortify does:
strip the content, split on newlines, keep stripped nonempty numbered lines,
strip their number prefix. -/
def parsedLines (content : Str) : List Str :=
  (splitSep '\n' (pyStrip content)).filterMap (fun line =>
    let l := pyStrip line
    if !l.isEmpty && numbered l then some (stripNum l) else none)

/-- Apply a batch reply to the item at batch-relative position pos: the title
is replaced exactly when the reply exists, is nonempty, and has a nonempty
parsed line at this position. -/
def applyAt (it : Item) (reply : Option Str) (pos : Nat) : Item :=
  match reply with
  | none => it
  | some c =>
    if c = [] then it
    else
      match (parsedLines c)[pos]? with
      | some t => if t = [] then it else { it with title := t }
      | none => it

/-- Apply a batch reply to a whole batch by position. -/
def applyBatch (batch : List Item) (reply : Option Str) : List Item :=
  batch.mapIdx (fun i it => applyAt it reply i)

/-- The batch loop of node_shortify: batches of 20, one oracle reply per
batch start index. -/
def shortifyGo (oracle : Nat → Option Str) (start : Nat) (items : List Item) : List Item :=
  match items with
  | [] => []
  | it :: rest =>
    applyBatch ((it :: rest).take 20) (oracle start)
      ++ shortifyGo oracle (start + 20) ((it :: rest).drop 20)
termination_by items.length
decreasing_by simp; omega

/-- graph.node_shortify: a no-op without an API key or with no items,
otherwise the batch loop. -/
def shortify (apiKey : Str) (oracle : Nat → Option Str) (items : List Item) : List Item :=
  if apiKey = [] then items
  else if items = [] then items
  else shortifyGo oracle 0 items

/-! Entity extraction (graph._extract_entities). -/

/-- Python str.split(): whitespace-separated words, no empties (cur holds the
current word reversed). -/
def splitWsGo (cur : Str) : Str → List Str
  | [] => if cur = [] then [] else [cur.reverse]
  | c :: cs =>
    if isWs c then
      if cur = [] then splitWsGo [] cs else cur.reverse :: splitWsGo [] cs
    else splitWsGo (c :: cur) cs

/-- Python str.split() on whitespace. -/
def splitWs (s : Str) : List Str := splitWsGo [] s

/-- The company-type suffix words of _extract_entities. -/
def companySuffixes : List Str :=
  [str ("therapeutics"), str ("pharma"), str ("pharmaceuticals"), str ("biotech"),
   str ("biosciences"), str ("sciences"), str ("genomics"), str ("oncology"),
   str ("medicine"), str ("health"), str ("bio")]

/-- Python rstrip over the three characters comma, apostrophe, letter s. -/
def rstripPs (s : Str) : Str := pyRstrip [',', Char.ofNat 39, 's'] s

/-- The generic capitalized words excluded from standalone entity extraction. -/
def genericWords : List Str :=
  [str ("the"), str ("and"), str ("for"), str ("with"), str ("from"), str ("into"),
   str ("after"), str ("phase"), str ("new"), str ("first"), str ("trial"), str ("drug"),
   str ("data"), str ("study"), str ("cancer"), str ("treatment"), str ("therapy"),
   str ("patients"), str ("disease"), str ("health")]

/-- Python word.strip over the punctuation set of _extract_entities. -/
def stripPunct (s : Str) : Str :=
  pyStripSet [Char.ofNat 39, ',', '.', '-', '(', ')', '[', ']'] s

/-- Python str.isupper with ASCII letters as the cased characters. -/
def pyIsUpper (s : Str) : Bool :=
  s.any Char.isAlpha && s.all (fun c => !c.isAlpha || c.isUpper)

/-- Append an element to a list unless already present: the membership
behavior of Python set.add (iteration order of the Python set is hash based
and is not relied on; only membership is stated in the theorems). -/
def addUnique (l : List Str) (x : Str) : List Str := if l.contains x then l else l ++ [x]

/-- graph._extract_entities: company names by substring, previous word joined
to a company-type suffix word, and standalone capitalized or short all-caps
tokens. -/
def extractEntities (title : Str) : List Str :=
  let titleLower := lowerS title
  let e1 := COMPANY_NAMES.foldl
    (fun acc c => if hasSub c titleLower then addUnique acc c else acc) []
  let words := splitWs title
  let e2 := (List.range words.length).foldl (fun acc i =>
    let word := words[i]?.getD []
    let wordLower := rstripPs (lowerS word)
    if companySuffixes.contains wordLower ∧ 0 < i then
      let prev := lowerS (rstripPs (words[i-1]?.getD []))
      if (prev ≠ [] ∧ prev.head?.any Char.isUpper) ∨ 2 < prev.length then
        addUnique acc (prev ++ '_' :: wordLower)
      else acc
    else acc) e1
  words.foldl (fun acc word =>
    let clean := stripPunct word
    if 3 ≤ clean.length then
      if pyIsUpper clean ∧ clean.length ≤ 5 then addUnique acc (lowerS clean)
      else if clean.head?.any Char.isUpper ∧ ¬(genericWords.contains (lowerS clean)) then
        addUnique acc (lowerS clean)
      else acc
    else acc) e2

/-! Concrete sample data used by the theorems below. -/

/-- A sample item with the id and title derived from a number. -/
def capItem (s : Str) (n : Nat) : Item :=
  { id := [hexD n], title := [hexD n], source := s, published := (n : Int) }

/-- Ten items from one source, published 1..10 in ascending input order. -/
def tenSameSource : List Item := (List.range 10).map (fun k => capItem (str ("X")) (k + 1))

/-- The eight most recent of tenSameSource, in recency order. -/
def tenExpected : List Item := (List.range 8).map (fun k => capItem (str ("X")) (10 - k))

/-- Nine items from one papers source, published 1..9. -/
def ninePapers : List Item := (List.range 9).map (fun k => capItem (str ("Bio Papers")) (k + 1))

/-- The seven most recent of ninePapers, in recency order. -/
def ninePapersExpected : List Item :=
  (List.range 7).map (fun k => capItem (str ("Bio Papers")) (9 - k))

/-- The failing renderer input of claim C1: an unrecognized category string. -/
def unknownCatItem : Item :=
  { title := str ("Unknown Category Item"), link := str ("https://example.com/1"),
    source := str ("Source A"), category := some (str ("Unknown Category")), published := 1 }

/-- A renderer input without a category field. -/
def noCatItem : Item :=
  { title := str ("No Category Item"), link := str ("https://example.com/2"),
    source := str ("Source B"), published := 1 }

/-- The earlier of the two same-category stories of claim C2. -/
def olderStory : Item :=
  { title := str ("Older Story"), link := str ("https://example.com/1"),
    source := str ("Source A"), category := some (str ("Company News")), published := 1 }

/-- The later of the two same-category stories of claim C2. -/
def newerStory : Item :=
  { title := str ("Newer Story"), link := str ("https://example.com/2"),
    source := str ("Source A"), category := some (str ("Company News")), published := 2 }

/-- Three syndicated copies of one story: same id, rising published dates. -/
def dupItem (n : Nat) : Item := { id := str ("abc"), title := [hexD n], published := (n : Int) }

/-- Invariant of the deduplication fold: acc holds one representative per id
seen so far, each a maximal-published input item of its id group. -/
def DedupInv (seen acc : List Item) : Prop :=
  (acc.map Item.id).Nodup
  ∧ (∀ x ∈ acc, x ∈ seen ∧ ∀ y ∈ seen, y.id = x.id → y.published ≤ x.published)
  ∧ (∀ y ∈ seen, ∃ x ∈ acc, x.id = y.id)

/-! Theorems. -/

/-- C5: graph._keyword_categorize is a total function whose value is always
one of the six taxonomy categories; the branch structure of the definition is
the first-matching-rule-wins cascade of case-insensitive substring tests with
default Company News. -/
theorem keywordCategorize_total (title : Str) : keywordCategorize title ∈ CATEGORIES := by
  unfold keywordCategorize
  dsimp only
  repeat' split
  all_goals decide

/-- C5 witness: the totality theorem applied to a concrete title. -/
theorem keywordCategorize_total_witness :
    keywordCategorize (str ("Generic headline about nothing")) ∈ CATEGORIES :=
  keywordCategorize_total (str ("Generic headline about nothing"))

/-- C1: code-bug evaluation.  An item with the unrecognized category string
Unknown Category renders under a subsection named after that string, and an
item without a category field renders under Other; in neither case does a
Company News subsection appear, although the spec and the repository test
test_unknown_category_maps_to_company_news require rendering under Company
News. -/
theorem renderer_unknown_category_bug :
    toMarkdownLines [unknownCatItem]
      = [str ("## Daily Biotech / Pharma Headlines\n"), str ("### Unknown Category"),
         str ("- [Unknown Category Item](https://example.com/1) — Source A"), []]
    ∧ str ("### Company News") ∉ toMarkdownLines [unknownCatItem]
    ∧ toMarkdownLines [noCatItem]
      = [str ("## Daily Biotech / Pharma Headlines\n"), str ("### Other"),
         str ("- [No Category Item](https://example.com/2) — Source B"), []]
    ∧ str ("### Company News") ∉ toMarkdownLines [noCatItem] := by decide

/-- C2: code-bug evaluation.  The renderer emits items of a subsection in
input order with no sorting: with the earlier story first in the input, the
earlier story renders strictly before the later one, although the spec and
the repository test test_sorts_by_recency require the later story first. -/
theorem renderer_no_sorting_bug :
    toMarkdownLines [olderStory, newerStory]
      = [str ("## Daily Biotech / Pharma Headlines\n"), str ("### Company News"),
         fmtLine olderStory, fmtLine newerStory, []]
    ∧ List.indexOf (fmtLine olderStory) (toMarkdownLines [olderStory, newerStory])
        < List.indexOf (fmtLine newerStory) (toMarkdownLines [olderStory, newerStory]) := by
  decide

/-- C9: code-bug evaluation.  In graph._extract_entities the previous word is
lower-cased before its isupper test, making the capitalization requirement
ineffective, and rstrip removes the final s of suffix words, so suffixes
ending in s never match.  Hence the uncapitalized title gene pharma stalls
yields the entity gene_pharma, while Acme Therapeutics deal does not yield
acme_therapeutics. -/
theorem extractEntities_capitalization_bug :
    str ("gene_pharma") ∈ extractEntities (str ("gene pharma stalls"))
    ∧ str ("acme_therapeutics") ∉ extractEntities (str ("Acme Therapeutics deal")) := by
  decide

/-- Helper: the formatted line of a single item always appears in the
rendered line list. -/
theorem mem_toMarkdownLines_single (it : Item) : fmtLine it ∈ toMarkdownLines [it] := by
  unfold toMarkdownLines
  apply List.mem_cons_of_mem
  rw [List.mem_flatMap]
  refine ⟨it.category.getD (str ("Other")), ?_, ?_⟩
  · unfold categoryOrderOf sectionsOf
    by_cases hk : rendererBaseOrder.contains (it.category.getD (str ("Other"))) <;>
      simp_all [insertG, List.elem_iff]
  · simp [sectionsOf, insertG]

/-- C10: for every single-item renderer input, the rendered entry carries the
trimmed title followed by the italic blurb inside the markdown link text when
a blurb field is present, and the trimmed title alone when it is absent. -/
theorem renderer_blurb_in_link (i t l s : Str) (pub : Int) (cat : Option Str) (b : Str) :
    str ("- [") ++ (pyStrip t ++ str (" — *") ++ b ++ str ("*")) ++ str ("](") ++ l
        ++ str (") — ") ++ s
      ∈ toMarkdownLines [⟨i, t, l, s, pub, cat, some b⟩]
    ∧ str ("- [") ++ pyStrip t ++ str ("](") ++ l ++ str (") — ") ++ s
      ∈ toMarkdownLines [⟨i, t, l, s, pub, cat, none⟩] := by
  constructor
  · have h := mem_toMarkdownLines_single ⟨i, t, l, s, pub, cat, some b⟩
    simpa [fmtLine] using h
  · have h := mem_toMarkdownLines_single ⟨i, t, l, s, pub, cat, none⟩
    simpa [fmtLine] using h

/-- Helper: one dedup fold step preserves the invariant. -/
theorem dedupStep_inv {seen acc : List Item} {x : Item} (h : DedupInv seen acc) :
    DedupInv (seen ++ [x]) (dedupStep acc x) := by
  obtain ⟨h1, h2, h3⟩ := h
  unfold dedupStep
  by_cases hany : acc.any (fun y => y.id == x.id)
  · rw [if_pos hany]
    obtain ⟨z0, hz0mem, hz0id⟩ : ∃ z ∈ acc, z.id = x.id := by
      simpa using hany
    refine ⟨?_, ?_, ?_⟩
    · have heq : (acc.map (fun y => if y.id = x.id ∧ y.published < x.published then x else y)).map
          Item.id = acc.map Item.id := by
        rw [List.map_map]
        apply List.map_congr_left
        intro a _
        by_cases hc : a.id = x.id ∧ a.published < x.published
        · simp only [Function.comp_apply, if_pos hc]
          exact hc.1.symm
        · simp only [Function.comp_apply, if_neg hc]
      rw [heq]; exact h1
    · intro x' hx'
      obtain ⟨z, hz, hfz⟩ := List.mem_map.mp hx'
      by_cases hc : z.id = x.id ∧ z.published < x.published
      · rw [if_pos hc] at hfz
        subst hfz
        refine ⟨List.mem_append_right _ (by simp), ?_⟩
        intro y hy hid
        rcases List.mem_append.mp hy with hy | hy
        · have := (h2 z hz).2 y hy (by rw [hid, ← hc.1])
          exact le_trans this (le_of_lt hc.2)
        · rw [List.mem_singleton] at hy
          rw [hy]
      · rw [if_neg hc] at hfz
        subst hfz
        refine ⟨List.mem_append_left _ (h2 z hz).1, ?_⟩
        intro y hy hid
        rcases List.mem_append.mp hy with hy | hy
        · exact (h2 z hz).2 y hy hid
        · rw [List.mem_singleton] at hy
          rw [hy] at hid
          rw [hy]
          exact le_of_not_lt (fun hlt => hc ⟨hid.symm, hlt⟩)
    · intro y hy
      rcases List.mem_append.mp hy with hy | hy
      · obtain ⟨z, hz, hzid⟩ := h3 y hy
        refine ⟨if z.id = x.id ∧ z.published < x.published then x else z,
          List.mem_map.mpr ⟨z, hz, rfl⟩, ?_⟩
        by_cases hc : z.id = x.id ∧ z.published < x.published
        · rw [if_pos hc, ← hc.1]; exact hzid
        · rw [if_neg hc]; exact hzid
      · rw [List.mem_singleton] at hy
        rw [hy]
        refine ⟨if z0.id = x.id ∧ z0.published < x.published then x else z0,
          List.mem_map.mpr ⟨z0, hz0mem, rfl⟩, ?_⟩
        by_cases hc : z0.id = x.id ∧ z0.published < x.published
        · rw [if_pos hc]
        · rw [if_neg hc]; exact hz0id
  · rw [if_neg hany]
    have hfresh : ∀ y ∈ acc, ¬ y.id = x.id := by
      intro y hy
      simp only [List.any_eq_true, beq_iff_eq, not_exists, not_and] at hany
      exact fun h => hany y hy h
    refine ⟨?_, ?_, ?_⟩
    · rw [List.map_append]
      simp only [List.map_cons, List.map_nil]
      rw [List.nodup_append]
      refine ⟨h1, by simp, ?_⟩
      intro a ha
      obtain ⟨z, hz, hzid⟩ := List.mem_map.mp ha
      simp only [List.mem_singleton]
      intro hax
      exact hfresh z hz (by rw [hzid, hax])
    · intro x' hx'
      rcases List.mem_append.mp hx' with hx' | hx'
      · refine ⟨List.mem_append_left _ (h2 x' hx').1, ?_⟩
        intro y hy hid
        rcases List.mem_append.mp hy with hy | hy
        · exact (h2 x' hx').2 y hy hid
        · rw [List.mem_singleton] at hy
          rw [hy] at hid
          exact absurd hid.symm (hfresh x' hx')
      · rw [List.mem_singleton] at hx'
        rw [hx']
        refine ⟨List.mem_append_right _ (by simp), ?_⟩
        intro y hy hid
        rcases List.mem_append.mp hy with hy | hy
        · obtain ⟨z, hz, hzid⟩ := h3 y hy
          exact absurd (hzid.trans hid) (hfresh z hz)
        · rw [List.mem_singleton] at hy
          rw [hy]
    · intro y hy
      rcases List.mem_append.mp hy with hy | hy
      · obtain ⟨z, hz, hzid⟩ := h3 y hy
        exact ⟨z, List.mem_append_left _ hz, hzid⟩
      · rw [List.mem_singleton] at hy
        rw [hy]
        exact ⟨x, List.mem_append_right _ (by simp), rfl⟩

/-- Helper: the dedup fold preserves the invariant along a list. -/
theorem dedup_foldl_inv : ∀ (l seen acc : List Item), DedupInv seen acc →
    DedupInv (seen ++ l) (l.foldl dedupStep acc) := by
  intro l
  induction l with
  | nil => intro seen acc h; simpa using h
  | cons x t ih =>
    intro seen acc h
    have h2 := ih (seen ++ [x]) (dedupStep acc x) (dedupStep_inv h)
    simpa [List.append_assoc] using h2

/-- Helper: on id-unique input the dedup fold appends every item unchanged. -/
theorem dedup_foldl_unique : ∀ (l acc : List Item),
    ((acc ++ l).map Item.id).Nodup → l.foldl dedupStep acc = acc ++ l := by
  intro l
  induction l with
  | nil => intro acc _; simp
  | cons x t ih =>
    intro acc hnd
    have hnotin : ¬ acc.any (fun y => y.id == x.id) := by
      simp only [List.any_eq_true, beq_iff_eq, not_exists, not_and]
      intro y hy hid
      rw [List.map_append, List.nodup_append] at hnd
      exact hnd.2.2 (List.mem_map.mpr ⟨y, hy, rfl⟩) (by simp [hid])
    have hstep : dedupStep acc x = acc ++ [x] := by
      unfold dedupStep; rw [if_neg hnotin]
    rw [List.foldl_cons, hstep, ih (acc ++ [x]) (by simpa using hnd)]
    simp

/-- C3 (spec-modelled, the filterer module is absent from src): deduplicate
returns the empty list on empty input, its output ids are pairwise distinct,
every survivor is an input item whose published timestamp is maximal among
the input items sharing its id, every input id keeps exactly one
representative, and an id-unique input passes through unchanged; two
concrete three-copy inputs in opposite orders both collapse to the latest
copy. -/
theorem deduplicate_spec :
    deduplicate ([] : List Item) = []
    ∧ (∀ items : List Item, ((deduplicate items).map Item.id).Nodup)
    ∧ (∀ items : List Item, ∀ x ∈ deduplicate items,
        x ∈ items ∧ ∀ y ∈ items, y.id = x.id → y.published ≤ x.published)
    ∧ (∀ items : List Item, ∀ y ∈ items, ∃ x ∈ deduplicate items, x.id = y.id)
    ∧ (∀ items : List Item, ((items.map Item.id)).Nodup → deduplicate items = items)
    ∧ deduplicate [dupItem 1, dupItem 2, dupItem 3] = [dupItem 3]
    ∧ deduplicate [dupItem 3, dupItem 2, dupItem 1] = [dupItem 3] := by
  have base : ∀ items : List Item, DedupInv items (deduplicate items) := by
    intro items
    have h0 : DedupInv [] [] := by
      refine ⟨by simp, by simp, by simp⟩
    simpa using dedup_foldl_inv items [] [] h0
  refine ⟨rfl, ?_, ?_, ?_, ?_, by decide, by decide⟩
  · intro items; exact (base items).1
  · intro items x hx; exact (base items).2.1 x hx
  · intro items y hy; exact (base items).2.2 y hy
  · intro items hnd
    simpa using dedup_foldl_unique items [] (by simpa using hnd)

/-- C3 witness: the theorem applied to a concrete id-unique two-item list. -/
theorem deduplicate_spec_witness :
    (([capItem (str ("a")) 1, capItem (str ("b")) 2].map Item.id).Nodup)
    ∧ deduplicate [capItem (str ("a")) 1, capItem (str ("b")) 2]
        = [capItem (str ("a")) 1, capItem (str ("b")) 2] :=
  ⟨by decide, deduplicate_spec.2.2.2.2.1 _ (by decide)⟩

/-- Helper: the cap loop emits a sublist of its input. -/
theorem capsGo_sublist (m p : Nat) : ∀ (l : List Item) (sc : Str → Nat) (pc : Nat),
    (capsGo m p l sc pc).Sublist l := by
  intro l
  induction l with
  | nil => intro sc pc; simp [capsGo]
  | cons it rest ih =>
    intro sc pc
    unfold capsGo
    split
    · exact (ih _ _).cons _
    · split
      · exact (ih _ _).cons _
      · split
        · exact (ih _ _).cons₂ _
        · exact (ih _ _).cons₂ _

/-- Helper: the cap loop emits at most m minus the current counter items of
any fixed source when the cap is active. -/
theorem capsGo_count_source (m p : Nat) : ∀ (l : List Item) (src : Str) (sc : Str → Nat)
    (pc : Nat), 0 < m → sc src ≤ m →
    ((capsGo m p l sc pc).countP (fun it => it.source == src)) + sc src ≤ m := by
  intro l
  induction l with
  | nil => intro src sc pc hm hsc; simpa [capsGo] using hsc
  | cons it rest ih =>
    intro src sc pc hm hsc
    have hbump_le : ∀ pcx, ¬ (0 < m ∧ m ≤ sc it.source) →
        ((capsGo m p rest (bump sc it.source) pcx).countP (fun z => z.source == src))
          + bump sc it.source src ≤ m := by
      intro pcx hskip
      have hlt : sc it.source < m := by
        rcases Nat.lt_or_ge (sc it.source) m with h | h
        · exact h
        · exact absurd ⟨hm, h⟩ hskip
      apply ih src (bump sc it.source) pcx hm
      unfold bump
      by_cases hs : src = it.source
      · rw [if_pos hs]; omega
      · rw [if_neg hs]; exact hsc
    have hmono : sc src ≤ bump sc it.source src := by
      unfold bump
      by_cases hs : src = it.source
      · rw [if_pos hs, hs]; omega
      · rw [if_neg hs]
    unfold capsGo
    split
    · exact ih src sc pc hm hsc
    · rename_i hskip
      split
      · have := hbump_le pc hskip
        omega
      · split
        · rw [List.countP_cons]
          have h2 := hbump_le (pc + 1) hskip
          by_cases hs : it.source = src
          · have hb : bump sc it.source src = sc src + 1 := by
              unfold bump
              rw [if_pos hs.symm, hs]
            have hif : ((it.source == src) : Bool) = true := by simp [hs]
            simp only [hif, if_true]
            omega
          · have hb : bump sc it.source src = sc src := by
              unfold bump
              rw [if_neg (fun h => hs h.symm)]
            have hif : ((it.source == src) : Bool) = false := by simp [hs]
            simp only [hif, Bool.false_eq_true, if_false]
            omega
        · rw [List.countP_cons]
          have h2 := hbump_le pc hskip
          by_cases hs : it.source = src
          · have hb : bump sc it.source src = sc src + 1 := by
              unfold bump
              rw [if_pos hs.symm, hs]
            have hif : ((it.source == src) : Bool) = true := by simp [hs]
            simp only [hif, if_true]
            omega
          · have hb : bump sc it.source src = sc src := by
              unfold bump
              rw [if_neg (fun h => hs h.symm)]
            have hif : ((it.source == src) : Bool) = false := by simp [hs]
            simp only [hif, Bool.false_eq_true, if_false]
            omega

/-- Helper: the cap loop admits at most p minus the current counter papers
items. -/
theorem capsGo_count_papers (m p : Nat) : ∀ (l : List Item) (sc : Str → Nat) (pc : Nat),
    pc ≤ p → ((capsGo m p l sc pc).countP (fun it => isPapers it.source)) + pc ≤ p := by
  intro l
  induction l with
  | nil => intro sc pc hpc; simpa [capsGo] using hpc
  | cons it rest ih =>
    intro sc pc hpc
    unfold capsGo
    split
    · exact ih sc pc hpc
    · split
      · exact ih _ pc hpc
      · split
        · rename_i hnotcap hpap
          have hplt : pc + 1 ≤ p := by
            rcases Nat.lt_or_ge pc p with h | h
            · omega
            · exact absurd ⟨hpap, h⟩ hnotcap
          rw [List.countP_cons]
          have h2 := ih (bump sc it.source) (pc + 1) hplt
          simp only [hpap, if_true]
          omega
        · rename_i hp
          rw [List.countP_cons]
          have h2 := ih (bump sc it.source) pc hpc
          simp only [Bool.not_eq_true] at hp
          simp only [hp, Bool.false_eq_true, if_false]
          omega

/-- Helper: membership in the insertion step of the descending sort. -/
theorem mem_insDesc {x z : Item} : ∀ {l : List Item}, z ∈ insDesc x l ↔ z = x ∨ z ∈ l := by
  intro l
  induction l with
  | nil => simp [insDesc]
  | cons y ys ih =>
    unfold insDesc
    split
    · simp only [List.mem_cons, ih]
      tauto
    · simp only [List.mem_cons]

/-- Helper: the insertion step preserves descending pairwise order. -/
theorem pairwise_insDesc {x : Item} : ∀ {l : List Item},
    l.Pairwise (fun a b => b.published ≤ a.published) →
    (insDesc x l).Pairwise (fun a b => b.published ≤ a.published) := by
  intro l
  induction l with
  | nil => intro _; simp [insDesc]
  | cons y ys ih =>
    intro h
    rw [List.pairwise_cons] at h
    unfold insDesc
    split
    · rename_i hc
      rw [List.pairwise_cons]
      refine ⟨?_, ih h.2⟩
      intro b hb
      rcases mem_insDesc.mp hb with hb | hb
      · rw [hb]; exact hc
      · exact h.1 b hb
    · rename_i hc
      rw [List.pairwise_cons]
      refine ⟨?_, List.pairwise_cons.mpr h⟩
      intro b hb
      rcases List.mem_cons.mp hb with hb | hb
      · rw [hb]; exact le_of_lt (lt_of_not_le hc)
      · exact le_trans (h.1 b hb) (le_of_lt (lt_of_not_le hc))

/-- Helper: the stable descending sort is pairwise descending. -/
theorem sortDesc_pairwise (items : List Item) :
    (sortDesc items).Pairwise (fun a b => b.published ≤ a.published) := by
  suffices h : ∀ acc : List Item, acc.Pairwise (fun a b => b.published ≤ a.published) →
      (items.foldl (fun acc x => insDesc x acc) acc).Pairwise
        (fun a b => b.published ≤ a.published) by
    exact h [] (by simp)
  induction items with
  | nil => intro acc hacc; simpa using hacc
  | cons x t ih =>
    intro acc hacc
    exact ih (insDesc x acc) (pairwise_insDesc hacc)

/-- Helper: membership in the stable descending sort. -/
theorem mem_sortDesc {z : Item} (items : List Item) : z ∈ sortDesc items ↔ z ∈ items := by
  suffices h : ∀ acc : List Item,
      (z ∈ items.foldl (fun acc x => insDesc x acc) acc ↔ z ∈ acc ∨ z ∈ items) by
    simpa using h []
  induction items with
  | nil => intro acc; simp
  | cons x t ih =>
    intro acc
    rw [List.foldl_cons, ih (insDesc x acc), mem_insDesc]
    simp only [List.mem_cons]
    tauto

/-- Helper: with the source cap disabled and no papers items, the cap loop
keeps everything. -/
theorem capsGo_zero (p : Nat) : ∀ (l : List Item) (sc : Str → Nat) (pc : Nat),
    (∀ it ∈ l, isPapers it.source = false) → capsGo 0 p l sc pc = l := by
  intro l
  induction l with
  | nil => intro sc pc _; rfl
  | cons it rest ih =>
    intro sc pc hnp
    have hp := hnp it (by simp)
    unfold capsGo
    rw [if_neg (by simp), if_neg (by simp [hp]), if_neg (by simp [hp])]
    rw [ih _ pc (fun z hz => hnp z (List.mem_cons_of_mem _ hz))]

/-- C4: the filter node iterates the deduplicated items in stable descending
published order and after it every source label has at most
MAX_ITEMS_PER_SOURCE survivors (when positive), at most PAPER_LIMIT papers
survivors remain, the survivors are in descending recency order, a zero
source cap disables the per-source cap, and the two concrete spec scenarios
hold: ten items of one source with cap 8 keep exactly the eight most recent,
and nine papers items with limit 7 keep exactly the seven most recent. -/
theorem nodeFilterCaps_spec :
    (∀ (m p : Nat) (items : List Item) (src : Str), 0 < m →
      ((nodeFilterCaps m p items).countP (fun it => it.source == src)) ≤ m)
    ∧ (∀ (m p : Nat) (items : List Item),
        ((nodeFilterCaps m p items).countP (fun it => isPapers it.source)) ≤ p)
    ∧ (∀ (m p : Nat) (items : List Item),
        (nodeFilterCaps m p items).Pairwise (fun a b => b.published ≤ a.published))
    ∧ (∀ (p : Nat) (items : List Item), (∀ it ∈ items, isPapers it.source = false) →
        nodeFilterCaps 0 p items = sortDesc items)
    ∧ nodeFilterCaps 8 7 tenSameSource = tenExpected
    ∧ nodeFilterCaps 8 7 ninePapers = ninePapersExpected := by
  refine ⟨?_, ?_, ?_, ?_, by decide, by decide⟩
  · intro m p items src hm
    have h := capsGo_count_source m p (sortDesc items) src (fun _ => 0) 0 hm (Nat.zero_le m)
    simpa [nodeFilterCaps] using h
  · intro m p items
    have h := capsGo_count_papers m p (sortDesc items) (fun _ => 0) 0 (Nat.zero_le p)
    simpa [nodeFilterCaps] using h
  · intro m p items
    exact (sortDesc_pairwise items).sublist (capsGo_sublist m p (sortDesc items) _ _)
  · intro p items hnp
    apply capsGo_zero
    intro it hit
    exact hnp it ((mem_sortDesc items).mp hit)

/-- C4 witness: the per-source bound applied at the concrete example. -/
theorem nodeFilterCaps_spec_witness :
    0 < 8 ∧ ((nodeFilterCaps 8 7 tenSameSource).countP
      (fun it => it.source == str ("X"))) ≤ 8 :=
  ⟨by decide, nodeFilterCaps_spec.1 8 7 tenSameSource (str ("X")) (by decide)⟩

/-- Helper: the batch loop preserves the item count. -/
theorem shortifyGo_length (o : Nat → Option Str) : ∀ (n : Nat) (items : List Item) (start : Nat),
    items.length ≤ n → (shortifyGo o start items).length = items.length := by
  intro n
  induction n with
  | zero =>
    intro items start h
    have hnil : items = [] := List.eq_nil_of_length_eq_zero (Nat.le_zero.mp h)
    subst hnil
    simp [shortifyGo]
  | succ n ih =>
    intro items start h
    cases items with
    | nil => simp [shortifyGo]
    | cons it rest =>
      rw [shortifyGo]
      rw [List.length_append]
      have h1 : (applyBatch ((it :: rest).take 20) (o start)).length
          = min 20 (it :: rest).length := by
        simp [applyBatch]
        omega
      have h2 := ih ((it :: rest).drop 20) (start + 20)
        (by simp only [List.length_drop, List.length_cons] at h ⊢; omega)
      rw [h1, h2, List.length_drop]
      omega

/-- Helper: pointwise description of the batch loop, indexing the oracle by
the batch start and the line by the batch-relative position. -/
theorem shortifyGo_get (o : Nat → Option Str) : ∀ (n : Nat) (items : List Item) (start i : Nat),
    items.length ≤ n →
    (shortifyGo o start items)[i]? =
      (items[i]?).map (fun it => applyAt it (o (start + 20 * (i / 20))) (i % 20)) := by
  intro n
  induction n with
  | zero =>
    intro items start i h
    have hnil : items = [] := List.eq_nil_of_length_eq_zero (Nat.le_zero.mp h)
    subst hnil
    simp [shortifyGo]
  | succ n ih =>
    intro items start i h
    cases items with
    | nil => simp [shortifyGo]
    | cons it rest =>
      rw [shortifyGo]
      have hlen : (applyBatch ((it :: rest).take 20) (o start)).length
          = min 20 (it :: rest).length := by
        simp [applyBatch]
        omega
      by_cases h20 : i < 20
      · by_cases hil : i < (it :: rest).length
        · rw [List.getElem?_append_left (by rw [hlen]; omega)]
          rw [applyBatch, List.getElem?_mapIdx]
          rw [List.getElem?_take, if_pos h20]
          rw [Nat.div_eq_of_lt h20, Nat.mod_eq_of_lt h20]
          simp
        · push_neg at hil
          rw [List.getElem?_append_right (by rw [hlen]; omega)]
          have hd : (it :: rest).drop 20 = [] := by
            apply List.drop_eq_nil_of_le
            omega
          rw [hd]
          have hr : ((it :: rest)[i]? : Option Item) = none :=
            List.getElem?_eq_none hil
          rw [hr]
          simp [shortifyGo]
      · push_neg at h20
        by_cases hl20 : 20 < (it :: rest).length
        · rw [List.getElem?_append_right (by rw [hlen]; omega)]
          rw [hlen]
          have hmin : min 20 (it :: rest).length = 20 := by omega
          rw [hmin]
          rw [ih ((it :: rest).drop 20) (start + 20) (i - 20)
            (by simp only [List.length_drop, List.length_cons] at h ⊢; omega)]
          rw [List.getElem?_drop]
          have e0 : 20 + (i - 20) = i := by omega
          rw [e0]
          have e1 : start + 20 + 20 * ((i - 20) / 20) = start + 20 * (i / 20) := by omega
          have e2 : (i - 20) % 20 = i % 20 := by omega
          rw [e1, e2]
        · push_neg at hl20
          rw [List.getElem?_append_right (by rw [hlen]; omega)]
          have hd : (it :: rest).drop 20 = [] := by
            apply List.drop_eq_nil_of_le
            omega
          rw [hd]
          have hr : ((it :: rest)[i]? : Option Item) = none :=
            List.getElem?_eq_none (by omega)
          rw [hr]
          simp [shortifyGo]

/-- C8: node_shortify is the identity without an API key and on an empty item
list; otherwise it preserves the item count and rewrites each item by the
batch reply of its 20-item batch: a failed reply leaves the item unchanged, a
reply whose parsed numbered lines have no entry (or an empty entry) at the
batch-relative position leaves the title unchanged, and a nonempty parsed
line at the position replaces exactly the title. -/
theorem shortify_spec :
    (∀ (o : Nat → Option Str) (items : List Item), shortify [] o items = items)
    ∧ (∀ (k : Str) (o : Nat → Option Str), shortify k o [] = [])
    ∧ (∀ (k : Str) (o : Nat → Option Str) (items : List Item), k ≠ [] →
        (shortify k o items).length = items.length)
    ∧ (∀ (k : Str) (o : Nat → Option Str) (items : List Item) (i : Nat), k ≠ [] →
        (shortify k o items)[i]? =
          (items[i]?).map (fun it => applyAt it (o (20 * (i / 20))) (i % 20)))
    ∧ (∀ (k : Str) (o : Nat → Option Str) (items : List Item) (i : Nat) (it : Item), k ≠ [] →
        items[i]? = some it → o (20 * (i / 20)) = none → (shortify k o items)[i]? = some it)
    ∧ (∀ (k : Str) (o : Nat → Option Str) (items : List Item) (i : Nat) (it : Item) (c : Str),
        k ≠ [] → items[i]? = some it → o (20 * (i / 20)) = some c →
        ((parsedLines c)[i % 20]? = none ∨ (parsedLines c)[i % 20]? = some []) →
        ((shortify k o items)[i]?).map Item.title = some it.title)
    ∧ (∀ (k : Str) (o : Nat → Option Str) (items : List Item) (i : Nat) (it : Item) (c t : Str),
        k ≠ [] → items[i]? = some it → o (20 * (i / 20)) = some c → c ≠ [] →
        (parsedLines c)[i % 20]? = some t → t ≠ [] →
        (shortify k o items)[i]? = some { it with title := t }) := by
  have hchar : ∀ (k : Str) (o : Nat → Option Str) (items : List Item) (i : Nat), k ≠ [] →
      (shortify k o items)[i]? =
        (items[i]?).map (fun it => applyAt it (o (20 * (i / 20))) (i % 20)) := by
    intro k o items i hk
    unfold shortify
    rw [if_neg hk]
    cases items with
    | nil => simp
    | cons it rest =>
      rw [if_neg (by simp)]
      have h := shortifyGo_get o (it :: rest).length (it :: rest) 0 i (le_refl _)
      rw [h, Nat.zero_add]
  refine ⟨?_, ?_, ?_, hchar, ?_, ?_, ?_⟩
  · intro o items; unfold shortify; rw [if_pos rfl]
  · intro k o; unfold shortify; split <;> simp
  · intro k o items hk
    unfold shortify
    rw [if_neg hk]
    cases items with
    | nil => rfl
    | cons it rest =>
      rw [if_neg (by simp)]
      exact shortifyGo_length o (it :: rest).length (it :: rest) 0 (le_refl _)
  · intro k o items i it hk hit ho
    rw [hchar k o items i hk, hit, ho]
    simp [applyAt]
  · intro k o items i it c hk hit ho hline
    rw [hchar k o items i hk, hit, ho]
    by_cases hc : c = []
    · simp [applyAt, hc]
    · rcases hline with hline | hline <;> simp [applyAt, hc, hline]
  · intro k o items i it c t hk hit ho hc hline ht
    rw [hchar k o items i hk, hit, ho]
    simp [applyAt, hc, hline, ht]

/-- C8 witness: a failed batch reply leaves a concrete one-item list
unchanged. -/
theorem shortify_spec_witness :
    (shortify (str ("key")) (fun _ => none) [capItem (str ("w")) 1])[0]? =
      some (capItem (str ("w")) 1) :=
  shortify_spec.2.2.2.2.1 (str ("key")) (fun _ => none) [capItem (str ("w")) 1] 0
    (capItem (str ("w")) 1) (by decide) rfl rfl

/-- Helper: a character code is a valid scalar value. -/
theorem charCode_valid (c : Char) :
    c.toNat < 0xD800 ∨ (0xDFFF < c.toNat ∧ c.toNat < 0x110000) := by
  have h := c.valid
  simpa [UInt32.isValidChar, Nat.isValidChar] using h

/-- Helper: evaluation of Char.ofNat on a valid code. -/
theorem toNat_ofNat (n : Nat) (h : n.isValidChar) : (Char.ofNat n).toNat = n := by
  simp [Char.ofNat, h, Char.ofNatAux, Char.toNat, UInt32.toNat, BitVec.toNat_ofNatLt]

/-- Helper: evaluation of Char.ofNat on codes below 0xD800. -/
theorem toNat_ofNat_small (n : Nat) (h : n < 0xD800) : (Char.ofNat n).toNat = n :=
  toNat_ofNat n (Or.inl h)

/-- Helper: UTF-8 decoding undoes the encoding of one character at the head
of a byte stream. -/
theorem utf8Decode_encode (c : Char) (bs : List Nat) :
    utf8Decode (utf8Encode c ++ bs) = c :: utf8Decode bs := by
  have hval := charCode_valid c
  have hofn : Char.ofNat c.toNat = c := Char.ofNat_toNat c
  unfold utf8Encode
  by_cases h1 : c.toNat < 0x80
  · rw [if_pos h1]
    show utf8Decode (c.toNat :: bs) = c :: utf8Decode bs
    rw [utf8Decode.eq_def]
    dsimp only
    rw [if_pos h1, hofn]
  · by_cases h2 : c.toNat < 0x800
    · rw [if_neg h1, if_pos h2]
      show utf8Decode ((0xC0 + c.toNat / 64) :: (0x80 + c.toNat % 64) :: bs)
          = c :: utf8Decode bs
      rw [utf8Decode.eq_def]
      dsimp only
      rw [if_neg (by omega), if_neg (by omega), if_pos (by omega)]
      rw [if_pos (by simp only [contB, Bool.and_eq_true, decide_eq_true_eq]; constructor <;> omega)]
      have he : (0xC0 + c.toNat / 64 - 0xC0) * 64 + (0x80 + c.toNat % 64 - 0x80) = c.toNat := by
        omega
      rw [he, hofn]
    · by_cases h3 : c.toNat < 0x10000
      · rw [if_neg h1, if_neg h2, if_pos h3]
        show utf8Decode ((0xE0 + c.toNat / 4096) :: (0x80 + c.toNat / 64 % 64)
            :: (0x80 + c.toNat % 64) :: bs) = c :: utf8Decode bs
        rw [utf8Decode.eq_def]
        dsimp only
        rw [if_neg (by omega), if_neg (by omega), if_neg (by omega), if_pos (by omega)]
        have hc3 : cont3 (0xE0 + c.toNat / 4096) (0x80 + c.toNat / 64 % 64) = true := by
          unfold cont3 contB
          split_ifs <;> simp only [Bool.and_eq_true, decide_eq_true_eq] <;>
            rcases hval with hv | hv <;> constructor <;> omega
        rw [if_pos hc3]
        rw [if_pos (by simp only [contB, Bool.and_eq_true, decide_eq_true_eq]; constructor <;> omega)]
        have he : (0xE0 + c.toNat / 4096 - 0xE0) * 4096 + (0x80 + c.toNat / 64 % 64 - 0x80) * 64
            + (0x80 + c.toNat % 64 - 0x80) = c.toNat := by
          omega
        rw [he, hofn]
      · rw [if_neg h1, if_neg h2, if_neg h3]
        have h4 : c.toNat < 0x110000 := by
          rcases hval with hv | hv
          · omega
          · exact hv.2
        show utf8Decode ((0xF0 + c.toNat / 262144) :: (0x80 + c.toNat / 4096 % 64)
            :: (0x80 + c.toNat / 64 % 64) :: (0x80 + c.toNat % 64) :: bs) = c :: utf8Decode bs
        rw [utf8Decode.eq_def]
        dsimp only
        rw [if_neg (by omega), if_neg (by omega), if_neg (by omega), if_neg (by omega),
          if_pos (by omega)]
        have hc4 : cont4 (0xF0 + c.toNat / 262144) (0x80 + c.toNat / 4096 % 64) = true := by
          unfold cont4 contB
          split_ifs <;> simp only [Bool.and_eq_true, decide_eq_true_eq] <;>
            constructor <;> omega
        rw [if_pos hc4]
        rw [if_pos (by simp only [contB, Bool.and_eq_true, decide_eq_true_eq]; constructor <;> omega)]
        rw [if_pos (by simp only [contB, Bool.and_eq_true, decide_eq_true_eq]; constructor <;> omega)]
        have he : (0xF0 + c.toNat / 262144 - 0xF0) * 262144
            + (0x80 + c.toNat / 4096 % 64 - 0x80) * 4096
            + (0x80 + c.toNat / 64 % 64 - 0x80) * 64 + (0x80 + c.toNat % 64 - 0x80)
            = c.toNat := by
          omega
        rw [he, hofn]

/-- Helper: UTF-8 decoding undoes string encoding. -/
theorem utf8Decode_utf8Str (s : Str) : utf8Decode (utf8Str s) = s := by
  induction s with
  | nil => rfl
  | cons c t ih =>
    have h : utf8Str (c :: t) = utf8Encode c ++ utf8Str t := by
      simp [utf8Str]
    rw [h, utf8Decode_encode, ih]

/-- Helper: hexD produces hexadecimal digits. -/
theorem isHexD_hexD (n : Nat) (h : n < 16) : isHexD (hexD n) = true := by
  interval_cases n <;> decide

/-- Helper: hexV inverts hexD below 16. -/
theorem hexV_hexD (n : Nat) (h : n < 16) : hexV (hexD n) = n := by
  interval_cases n <;> decide

/-- Helper: hexD never produces a plus sign. -/
theorem hexD_ne_plus (n : Nat) : hexD n ≠ '+' := by
  unfold hexD
  split <;> decide

/-- Helper: tokenizing a non-percent literal character. -/
theorem tokenize_cons_ne {c : Char} (hc : c ≠ '%') (t : Str) :
    tokenize (c :: t) = Sum.inl c :: tokenize t := by
  rw [tokenize.eq_def]
  split
  · rename_i h1 h2 rest heq
    injection heq with a b
    exact absurd a hc
  · rename_i c' rest hno heq
    injection heq with a b
    rw [a, b]
  · rename_i heq
    exact absurd heq (by simp)

/-- Helper: tokenizing a percent escape of one byte. -/
theorem tokenize_escape (b : Nat) (hb : b < 256) (t : Str) :
    tokenize ('%' :: hexD (b / 16) :: hexD (b % 16) :: t) = Sum.inr b :: tokenize t := by
  rw [tokenize.eq_def]
  split
  · rename_i h1 h2 rest heq
    injection heq with a heq2
    injection heq2 with a1 heq3
    injection heq3 with a2 a3
    rw [← a1, ← a2, ← a3]
    rw [if_pos (by rw [isHexD_hexD _ (by omega), isHexD_hexD _ (by omega)]; rfl)]
    rw [hexV_hexD _ (by omega), hexV_hexD _ (by omega)]
    rw [show b / 16 * 16 + b % 16 = b from by omega]
  · rename_i c' rest hno heq
    injection heq with a b2
    exact absurd (hno (hexD (b / 16)) (hexD (b % 16)) t a.symm (by rw [← b2])) (by simp)
  · rename_i heq
    exact absurd heq (by simp)

/-- Helper: detok accumulates a run of escaped bytes. -/
theorem detok_inr_append (bs : List Nat) : ∀ (P : List Nat) (T : List (Char ⊕ Nat)),
    detok P (bs.map Sum.inr ++ T) = detok (bs.reverse ++ P) T := by
  induction bs with
  | nil => intro P T; simp
  | cons b bs ih =>
    intro P T
    simp only [List.map_cons, List.cons_append, List.reverse_cons, List.append_assoc]
    rw [detok, ih (b :: P) T]
    simp

/-- Helper: bytes of the UTF-8 encoding are below 256. -/
theorem utf8Encode_lt (c : Char) : ∀ b ∈ utf8Encode c, b < 256 := by
  intro b hb
  have hval := charCode_valid c
  unfold utf8Encode at hb
  dsimp only at hb
  split_ifs at hb <;>
    simp only [List.mem_cons, List.mem_singleton, List.not_mem_nil, or_false] at hb
  · omega
  · rcases hb with rfl | rfl <;> omega
  · rcases hb with rfl | rfl | rfl <;> omega
  · rcases hb with rfl | rfl | rfl | rfl <;> omega

/-- Helper: bytes of a multi-byte UTF-8 encoding are at least 128. -/
theorem utf8Encode_ge (c : Char) (hc : 128 ≤ c.toNat) : ∀ b ∈ utf8Encode c, 128 ≤ b := by
  intro b hb
  unfold utf8Encode at hb
  dsimp only at hb
  split_ifs at hb <;>
    simp only [List.mem_cons, List.mem_singleton, List.not_mem_nil, or_false] at hb
  · omega
  · rcases hb with rfl | rfl <;> omega
  · rcases hb with rfl | rfl | rfl <;> omega
  · rcases hb with rfl | rfl | rfl | rfl <;> omega

/-- Helper: safe bytes are at most 126. -/
theorem safeB_le (b : Nat) (h : safeB b = true) : b ≤ 126 := by
  unfold safeB at h
  simp only [Bool.or_eq_true, Bool.and_eq_true, decide_eq_true_eq] at h
  omega

/-- Helper: the plus-to-space replacement turns a quoted byte into its
quoteByteM image. -/
theorem map_plus_quoteByte (b : Nat) (hb : b < 256) :
    (quoteByte b).map (fun c => if c = '+' then ' ' else c) = quoteByteM b := by
  unfold quoteByte quoteByteM
  split_ifs with h1 h2
  · have hne : Char.ofNat b ≠ '+' := by
      intro h
      have ht := toNat_ofNat_small b (by omega)
      rw [h] at ht
      have : b = 43 := by simpa using ht.symm
      rw [this] at h1
      exact absurd h1 (by decide)
    simp [hne]
  · simp
  · have h3 : ('%' : Char) ≠ '+' := by decide
    simp [h3, hexD_ne_plus]

/-- Helper: the plus-to-space replacement of the full quoted string. -/
theorem quotePlus_map_plus (s : Str) :
    (quotePlus s).map (fun c => if c = '+' then ' ' else c)
      = (utf8Str s).flatMap quoteByteM := by
  unfold quotePlus
  rw [List.map_flatMap]
  apply List.flatMap_congr
  intro b hb
  apply map_plus_quoteByte
  obtain ⟨c, _, hbc⟩ := List.mem_flatMap.mp hb
  exact utf8Encode_lt c b hbc

/-- Helper: tokenizing the escape run of a list of unsafe bytes. -/
theorem tokenize_escape_run : ∀ (bs : List Nat),
    (∀ b ∈ bs, b < 256 ∧ ¬ safeB b = true ∧ b ≠ 32) → ∀ (u : Str),
    tokenize (bs.flatMap quoteByteM ++ u) = bs.map Sum.inr ++ tokenize u := by
  intro bs
  induction bs with
  | nil => intro _ u; simp
  | cons b t ih =>
    intro h u
    obtain ⟨hb, hs, h32⟩ := h b (by simp)
    have hqm : quoteByteM b = ['%', hexD (b / 16), hexD (b % 16)] := by
      unfold quoteByteM
      rw [if_neg hs, if_neg h32]
    simp only [List.flatMap_cons, hqm, List.append_assoc, List.cons_append, List.nil_append]
    rw [tokenize_escape b hb, ih (fun z hz => h z (by simp [hz])) u]
    simp

/-- Helper: the central unquote-of-quote computation, with an already decoded
prefix held in the detok accumulator. -/
theorem detok_tokenize_quote : ∀ (s pre : Str),
    detok (utf8Str pre).reverse (tokenize ((utf8Str s).flatMap quoteByteM)) = pre ++ s := by
  intro s
  induction s with
  | nil =>
    intro pre
    show detok (utf8Str pre).reverse [] = pre ++ []
    rw [detok]
    simp [utf8Decode_utf8Str]
  | cons c s' ih =>
    intro pre
    have hsplit : (utf8Str (c :: s')).flatMap quoteByteM
        = (utf8Encode c).flatMap quoteByteM ++ (utf8Str s').flatMap quoteByteM := by
      simp [utf8Str]
    rw [hsplit]
    by_cases hlit : c.toNat < 128 ∧ (safeB c.toNat = true ∨ c.toNat = 32)
    · have henc : utf8Encode c = [c.toNat] := by
        unfold utf8Encode
        rw [if_pos hlit.1]
      have hblock : (utf8Encode c).flatMap quoteByteM = [c] := by
        rw [henc]
        rcases hlit.2 with hsf | h32
        · simp only [List.flatMap_cons, List.flatMap_nil, List.append_nil]
          unfold quoteByteM
          rw [if_pos hsf, Char.ofNat_toNat]
        · simp only [List.flatMap_cons, List.flatMap_nil, List.append_nil]
          unfold quoteByteM
          rw [if_neg (by rw [h32]; decide), if_pos h32]
          have : c = ' ' := by
            have := Char.ofNat_toNat c
            rw [h32] at this
            exact this.symm
          rw [this]
      have hne : c ≠ '%' := by
        intro h
        rw [h] at hlit
        exact absurd hlit (by decide)
      rw [hblock]
      rw [show ([c] : Str) ++ (utf8Str s').flatMap quoteByteM
        = c :: (utf8Str s').flatMap quoteByteM from by simp]
      rw [tokenize_cons_ne hne]
      rw [detok]
      rw [List.reverse_reverse, utf8Decode_utf8Str]
      have hih := ih []
      rw [show (utf8Str ([] : Str)).reverse = [] from rfl] at hih
      rw [hih]
      simp
    · have hesc : ∀ b ∈ utf8Encode c, b < 256 ∧ ¬ safeB b = true ∧ b ≠ 32 := by
        intro b hb
        refine ⟨utf8Encode_lt c b hb, ?_, ?_⟩
        · by_cases hc : 128 ≤ c.toNat
          · intro hsf
            have h1 := utf8Encode_ge c hc b hb
            have h2 := safeB_le b hsf
            omega
          · push_neg at hc
            have henc : utf8Encode c = [c.toNat] := by
              unfold utf8Encode
              rw [if_pos hc]
            rw [henc] at hb
            simp at hb
            subst hb
            intro hsf
            exact hlit ⟨hc, Or.inl hsf⟩
        · by_cases hc : 128 ≤ c.toNat
          · have h1 := utf8Encode_ge c hc b hb
            omega
          · push_neg at hc
            have henc : utf8Encode c = [c.toNat] := by
              unfold utf8Encode
              rw [if_pos hc]
            rw [henc] at hb
            simp at hb
            subst hb
            intro h32
            exact hlit ⟨hc, Or.inr h32⟩
      rw [tokenize_escape_run (utf8Encode c) hesc]
      rw [detok_inr_append]
      have hrev : (utf8Encode c).reverse ++ (utf8Str pre).reverse
          = (utf8Str (pre ++ [c])).reverse := by
        rw [show utf8Str (pre ++ [c]) = utf8Str pre ++ utf8Encode c from by simp [utf8Str]]
        rw [List.reverse_append]
      rw [hrev, ih (pre ++ [c])]
      simp

/-- Helper: unquoting with plus replacement inverts quote_plus. -/
theorem decodePart_quotePlus (s : Str) : decodePart (quotePlus s) = s := by
  unfold decodePart pyUnquote
  rw [quotePlus_map_plus]
  simpa using detok_tokenize_quote s []

/-- Helper: hexadecimal digits are qp characters. -/
theorem isQpChar_hexD (n : Nat) : isQpChar (hexD n) = true := by
  unfold hexD
  split <;> decide

/-- Helper: every character of a quote_plus image is a qp character. -/
theorem quotePlus_chars (s : Str) : ∀ c ∈ quotePlus s, isQpChar c = true := by
  intro c hc
  unfold quotePlus at hc
  obtain ⟨b, hb, hcb⟩ := List.mem_flatMap.mp hc
  have hb256 : b < 256 := by
    obtain ⟨c0, _, hb0⟩ := List.mem_flatMap.mp hb
    exact utf8Encode_lt c0 b hb0
  unfold quoteByte at hcb
  split_ifs at hcb with h1 h2
  · simp only [List.mem_singleton] at hcb
    subst hcb
    unfold isQpChar
    rw [toNat_ofNat_small b (by omega), h1]
    rfl
  · simp only [List.mem_singleton] at hcb
    subst hcb
    decide
  · simp only [List.mem_cons, List.mem_singleton, List.not_mem_nil, or_false] at hcb
    rcases hcb with rfl | rfl | rfl
    · decide
    · exact isQpChar_hexD _
    · exact isQpChar_hexD _

/-- Helper: qp characters are none of the separator characters of query and
URL syntax. -/
theorem isQpChar_not_special (c : Char) (h : isQpChar c = true) :
    c ≠ '&' ∧ c ≠ '=' ∧ c ≠ '#' ∧ c ≠ '?' := by
  refine ⟨?_, ?_, ?_, ?_⟩ <;> intro he <;> rw [he] at h <;> revert h <;> decide

/-- Helper: splitSep never returns the empty list. -/
theorem splitSep_ne_nil (sep : Char) : ∀ s, splitSep sep s ≠ [] := by
  intro s
  induction s with
  | nil => simp [splitSep]
  | cons c cs ih =>
    unfold splitSep
    split
    · simp
    · split
      · simp
      · simp

/-- Helper: splitSep on a non-separator head prepends into the first part. -/
theorem splitSep_cons_ne (sep c : Char) (hc : c ≠ sep) (cs : Str) :
    splitSep sep (c :: cs) = (splitSep sep cs).modifyHead (c :: ·) := by
  rw [splitSep.eq_def]
  dsimp only
  rw [if_neg hc]
  cases h : splitSep sep cs with
  | nil => exact absurd h (splitSep_ne_nil sep cs)
  | cons x t => simp

/-- Helper: splitSep over an appended separator-free prefix. -/
theorem splitSep_append (sep : Char) : ∀ (a b : Str), sep ∉ a →
    splitSep sep (a ++ b) = (splitSep sep b).modifyHead (a ++ ·) := by
  intro a
  induction a with
  | nil =>
    intro b _
    cases h : splitSep sep b with
    | nil => exact absurd h (splitSep_ne_nil sep b)
    | cons x t => simp [h]
  | cons c a' ih =>
    intro b hfree
    have hc : c ≠ sep := fun h => hfree (by simp [h])
    rw [List.cons_append, splitSep_cons_ne sep c hc, ih b (fun h => hfree (by simp [h]))]
    cases h : splitSep sep b with
    | nil => exact absurd h (splitSep_ne_nil sep b)
    | cons x t => simp

/-- Helper: splitSep of a separator-free string. -/
theorem splitSep_no_sep (sep : Char) (a : Str) (h : sep ∉ a) : splitSep sep a = [a] := by
  have h2 := splitSep_append sep a [] h
  rw [show splitSep sep ([] : Str) = [[]] from rfl] at h2
  simpa using h2

/-- Helper: splitSep inverts joinSep on separator-free nonempty part lists. -/
theorem splitSep_joinSep (sep : Char) : ∀ (parts : List Str), parts ≠ [] →
    (∀ p ∈ parts, sep ∉ p) → splitSep sep (joinSep sep parts) = parts := by
  intro parts
  induction parts with
  | nil => intro h; exact absurd rfl h
  | cons p ps ih =>
    intro _ hfree
    cases ps with
    | nil =>
      show splitSep sep (joinSep sep [p]) = [p]
      rw [joinSep]
      exact splitSep_no_sep sep p (hfree p (by simp))
    | cons q qs =>
      show splitSep sep (p ++ sep :: joinSep sep (q :: qs)) = p :: q :: qs
      rw [splitSep_append sep p _ (hfree p (by simp))]
      rw [show splitSep sep (sep :: joinSep sep (q :: qs))
        = [] :: splitSep sep (joinSep sep (q :: qs)) from by rw [splitSep]; simp]
      rw [ih (by simp) (fun z hz => hfree z (by simp [hz]))]
      simp

/-- Helper: breakOn skips a non-matching head. -/
theorem breakOn_cons_neg {p : Char → Bool} {c : Char} (hp : ¬ p c = true) (t : Str) :
    breakOn p (c :: t) = (c :: (breakOn p t).1, (breakOn p t).2) := by
  rw [breakOn.eq_def]
  dsimp only
  rw [if_neg hp]

/-- Helper: breakOn over an appended prefix free of matching characters. -/
theorem breakOn_append (p : Char → Bool) : ∀ (a b : Str), (∀ c ∈ a, ¬ p c = true) →
    breakOn p (a ++ b) = (a ++ (breakOn p b).1, (breakOn p b).2) := by
  intro a
  induction a with
  | nil => intro b _; simp
  | cons c a' ih =>
    intro b hfree
    rw [List.cons_append, breakOn_cons_neg (hfree c (by simp))]
    rw [ih b (fun z hz => hfree z (by simp [hz]))]
    simp

/-- Helper: breakOn stops at a matching head. -/
theorem breakOn_pos {p : Char → Bool} {c : Char} (hp : p c = true) (t : Str) :
    breakOn p (c :: t) = ([], c :: t) := by
  unfold breakOn
  rw [if_pos hp]

/-- Helper: breakOn of a match-free string. -/
theorem breakOn_none (p : Char → Bool) (a : Str) (h : ∀ c ∈ a, ¬ p c = true) :
    breakOn p a = (a, []) := by
  have h2 := breakOn_append p a [] h
  rw [show breakOn p ([] : Str) = ([], []) from rfl] at h2
  simpa using h2

/-- Helper: parsePair decodes one urlencoded field. -/
theorem parsePair_encoded (k v : Str) :
    parsePair (quotePlus k ++ '=' :: quotePlus v) = some (k, v) := by
  unfold parsePair
  rw [if_neg (by simp)]
  have hk : ∀ c ∈ quotePlus k, ¬ (decide (c = '=') = true) := by
    intro c hc
    simpa using (isQpChar_not_special c (quotePlus_chars k c hc)).2.1
  rw [breakOn_append _ (quotePlus k) _ hk]
  rw [breakOn_pos (by simp)]
  simp only [List.append_nil]
  rw [decodePart_quotePlus, decodePart_quotePlus]

/-- Helper: parse_qsl inverts urlencode on grouped parameters with nonempty
value lists. -/
theorem parseQsl_urlencodeG (d : List (Str × List Str)) (hne : ∀ kv ∈ d, kv.2 ≠ []) :
    parseQsl (urlencodeG d) = flattenG d := by
  unfold parseQsl urlencodeG
  have hpieces : ∀ piece ∈ d.flatMap
      (fun kv => kv.2.map (fun v => quotePlus kv.1 ++ '=' :: quotePlus v)),
      ('&' : Char) ∉ piece ∧ piece ≠ [] := by
    intro piece hp
    obtain ⟨kv, _, hmap⟩ := List.mem_flatMap.mp hp
    obtain ⟨v, _, henc⟩ := List.mem_map.mp hmap
    subst henc
    constructor
    · intro hmem
      rcases List.mem_append.mp hmem with hmem | hmem
      · exact (isQpChar_not_special _ (quotePlus_chars _ _ hmem)).1 rfl
      · rcases List.mem_cons.mp hmem with h | hmem
        · exact absurd h.symm (by decide)
        · exact (isQpChar_not_special _ (quotePlus_chars _ _ hmem)).1 rfl
    · simp
  have hfm : ∀ (d' : List (Str × List Str)),
      (d'.flatMap (fun kv => kv.2.map (fun v => quotePlus kv.1 ++ '=' :: quotePlus v))).filterMap
        parsePair = flattenG d' := by
    intro d'
    induction d' with
    | nil => rfl
    | cons kv t ih =>
      simp only [List.flatMap_cons, List.filterMap_append, ih, flattenG]
      congr 1
      rw [List.filterMap_map]
      have h2 : (parsePair ∘ fun v => quotePlus kv.1 ++ '=' :: quotePlus v)
          = some ∘ (fun v => (kv.1, v)) := by
        funext v
        exact parsePair_encoded kv.1 v
      rw [h2, List.filterMap_eq_map]
  by_cases hd : d.flatMap (fun kv => kv.2.map (fun v => quotePlus kv.1 ++ '=' :: quotePlus v)) = []
  · cases d with
    | nil => rfl
    | cons kv t =>
      exfalso
      simp only [List.flatMap_cons, List.append_eq_nil, List.map_eq_nil_iff] at hd
      exact hne kv (by simp) hd.1
  · rw [splitSep_joinSep '&' _ hd (fun z hz => (hpieces z hz).1)]
    exact hfm d

/-- Helper: inserting a fresh key appends a new entry. -/
theorem insertG_fresh {V : Type} : ∀ (acc : List (Str × List V)) (k : Str) (v : V),
    (∀ e ∈ acc, e.1 ≠ k) → insertG acc k v = acc ++ [(k, [v])] := by
  intro acc
  induction acc with
  | nil => intro k v _; rfl
  | cons e t ih =>
    intro k v hfresh
    unfold insertG
    rw [if_neg (hfresh e (by simp))]
    rw [ih k v (fun z hz => hfresh z (by simp [hz]))]
    simp

/-- Helper: inserting into the last entry when its key is fresh earlier. -/
theorem insertG_last {V : Type} : ∀ (acc : List (Str × List V)) (k : Str) (ws : List V) (v : V),
    (∀ e ∈ acc, e.1 ≠ k) → insertG (acc ++ [(k, ws)]) k v = acc ++ [(k, ws ++ [v])] := by
  intro acc
  induction acc with
  | nil =>
    intro k ws v _
    show insertG [(k, ws)] k v = [(k, ws ++ [v])]
    unfold insertG
    rw [if_pos rfl]
  | cons e t ih =>
    intro k ws v hfresh
    rw [List.cons_append]
    unfold insertG
    rw [if_neg (hfresh e (by simp))]
    rw [ih k ws v (fun z hz => hfresh z (by simp [hz]))]
    simp

/-- Helper: folding a run of one key's values onto a trailing entry. -/
theorem foldl_insert_run {V : Type} : ∀ (vs : List V) (acc : List (Str × List V)) (k : Str)
    (ws : List V), (∀ e ∈ acc, e.1 ≠ k) →
    vs.foldl (fun d v => insertG d k v) (acc ++ [(k, ws)]) = acc ++ [(k, ws ++ vs)] := by
  intro vs
  induction vs with
  | nil => intro acc k ws _; simp
  | cons v vs' ih =>
    intro acc k ws hfresh
    rw [List.foldl_cons, insertG_last acc k ws v hfresh, ih acc k (ws ++ [v]) hfresh]
    simp

/-- Helper: grouping a flattened grouped list restores it. -/
theorem foldl_insert_flattenG {V : Type} : ∀ (d : List (Str × List V))
    (acc : List (Str × List V)),
    (∀ k ∈ d.map Prod.fst, ∀ e ∈ acc, e.1 ≠ k) → (d.map Prod.fst).Nodup →
    (∀ kv ∈ d, kv.2 ≠ []) →
    (flattenG d).foldl (fun d kv => insertG d kv.1 kv.2) acc = acc ++ d := by
  intro d
  induction d with
  | nil => intro acc _ _ _; simp [flattenG]
  | cons kv d' ih =>
    intro acc hfresh hnd hne
    obtain ⟨k, vs⟩ := kv
    have hkfresh : ∀ e ∈ acc, e.1 ≠ k := hfresh k (by simp)
    cases vs with
    | nil => exact absurd (rfl : ([] : List V) = []) (hne (k, []) (by simp))
    | cons v0 vs' =>
      rw [show flattenG ((k, v0 :: vs') :: d')
        = (v0 :: vs').map (fun v => (k, v)) ++ flattenG d' from by simp [flattenG]]
      rw [List.foldl_append, List.foldl_map]
      dsimp only
      rw [List.foldl_cons]
      rw [show insertG acc k v0 = acc ++ [(k, [v0])] from insertG_fresh acc k v0 hkfresh]
      rw [foldl_insert_run vs' acc k [v0] hkfresh]
      rw [ih (acc ++ [(k, [v0] ++ vs')]) ?hf ?hn ?he]
      · simp
      case hf =>
        intro k' hk' e he
        rcases List.mem_append.mp he with he | he
        · exact hfresh k' (by simp [hk']) e he
        · rw [List.mem_singleton] at he
          rw [he]
          rw [List.map_cons, List.nodup_cons] at hnd
          intro hcontra
          exact hnd.1 (by rw [hcontra]; exact hk')
      case hn =>
        rw [List.map_cons, List.nodup_cons] at hnd
        exact hnd.2
      case he =>
        intro z hz
        exact hne z (by simp [hz])

/-- Helper: groupPairs inverts flattenG on key-distinct lists with nonempty
value lists. -/
theorem groupPairs_flattenG {V : Type} (d : List (Str × List V))
    (hnd : (d.map Prod.fst).Nodup) (hne : ∀ kv ∈ d, kv.2 ≠ []) :
    groupPairs (flattenG d) = d := by
  unfold groupPairs
  have h := foldl_insert_flattenG d [] (by simp) hnd hne
  simpa using h

/-- Helper: keys of an insert are among the old keys and the new key. -/
theorem insertG_keys_sub {V : Type} : ∀ (d : List (Str × List V)) (k : Str) (v : V),
    ∀ k' ∈ (insertG d k v).map Prod.fst, k' ∈ d.map Prod.fst ∨ k' = k := by
  intro d
  induction d with
  | nil =>
    intro k v k' hk'
    rw [show insertG ([] : List (Str × List V)) k v = [(k, [v])] from rfl] at hk'
    simp at hk'
    exact Or.inr hk'
  | cons e t ih =>
    intro k v k' hk'
    unfold insertG at hk'
    split at hk'
    · simp at hk'
      rcases hk' with hk' | hk'
      · exact Or.inl (by simp [hk'])
      · exact Or.inl (by simp [hk'])
    · simp only [List.map_cons, List.mem_cons] at hk'
      rcases hk' with hk' | hk'
      · exact Or.inl (by simp [hk'])
      · rcases ih k v k' hk' with h | h
        · exact Or.inl (by simp [h])
        · exact Or.inr h

/-- Helper: insertG preserves distinct keys and nonempty value lists. -/
theorem insertG_inv {V : Type} : ∀ (d : List (Str × List V)) (k : Str) (v : V),
    ((d.map Prod.fst).Nodup ∧ ∀ kv ∈ d, kv.2 ≠ []) →
    ((insertG d k v).map Prod.fst).Nodup ∧ ∀ kv ∈ insertG d k v, kv.2 ≠ [] := by
  intro d
  induction d with
  | nil =>
    intro k v _
    rw [show insertG ([] : List (Str × List V)) k v = [(k, [v])] from rfl]
    constructor
    · simp
    · intro kv hkv
      simp at hkv
      rw [hkv]
      simp
  | cons e t ih =>
    intro k v h
    obtain ⟨hnd, hne⟩ := h
    rw [List.map_cons, List.nodup_cons] at hnd
    unfold insertG
    split
    · constructor
      · rw [List.map_cons, List.nodup_cons]
        exact hnd
      · intro kv hkv
        rcases List.mem_cons.mp hkv with hkv | hkv
        · rw [hkv]
          simp
        · exact hne kv (by simp [hkv])
    · have hih := ih k v ⟨hnd.2, fun z hz => hne z (by simp [hz])⟩
      constructor
      · rw [List.map_cons, List.nodup_cons]
        refine ⟨?_, hih.1⟩
        intro hcontra
        rcases insertG_keys_sub t k v e.1 hcontra with h | h
        · exact hnd.1 h
        · rename_i hek
          exact hek h
      · intro kv hkv
        rcases List.mem_cons.mp hkv with hkv | hkv
        · rw [hkv]
          exact hne e (by simp)
        · exact hih.2 kv hkv

/-- Helper: groupPairs output has distinct keys and nonempty value lists. -/
theorem groupPairs_inv {V : Type} (l : List (Str × V)) :
    (((groupPairs l).map Prod.fst).Nodup) ∧ ∀ kv ∈ groupPairs l, kv.2 ≠ [] := by
  unfold groupPairs
  suffices h : ∀ (acc : List (Str × List V)),
      ((acc.map Prod.fst).Nodup ∧ ∀ kv ∈ acc, kv.2 ≠ []) →
      (((l.foldl (fun d kv => insertG d kv.1 kv.2) acc).map Prod.fst).Nodup
        ∧ ∀ kv ∈ l.foldl (fun d kv => insertG d kv.1 kv.2) acc, kv.2 ≠ []) by
    exact h [] (by simp)
  induction l with
  | nil => intro acc h; simpa using h
  | cons x t ih =>
    intro acc h
    rw [List.foldl_cons]
    exact ih (insertG acc x.1 x.2) (insertG_inv acc x.1 x.2 h)

/-- Helper: lowerC either fixes a character or shifts an upper-case letter. -/
theorem lowerC_cases (c : Char) :
    lowerC c = c ∨ ((lowerC c).toNat = c.toNat + 32 ∧ 65 ≤ c.toNat ∧ c.toNat ≤ 90) := by
  unfold lowerC Char.toLower
  dsimp only
  split_ifs with h
  · right
    exact ⟨toNat_ofNat_small _ (by omega), h.1, h.2⟩
  · left
    rfl

/-- Helper: lowerC fixes characters that are not upper-case letters. -/
theorem lowerC_fix (d : Char) (h : ¬ (65 ≤ d.toNat ∧ d.toNat ≤ 90)) : lowerC d = d := by
  unfold lowerC Char.toLower
  dsimp only
  rw [if_neg h]

/-- Helper: lowerC is idempotent. -/
theorem lowerC_idem (c : Char) : lowerC (lowerC c) = lowerC c := by
  rcases lowerC_cases c with h | h
  · rw [h]
    exact h
  · exact lowerC_fix _ (by omega)

/-- Helper: lowerS is idempotent. -/
theorem lowerS_idem (s : Str) : lowerS (lowerS s) = lowerS s := by
  unfold lowerS
  rw [List.map_map]
  apply List.map_congr_left
  intro c _
  exact lowerC_idem c

/-- Helper: a character whose lower case is not a lower-case letter was
already that character. -/
theorem lowerC_eq_char {c c' : Char} (h : lowerC c = c')
    (hn : ¬ (97 ≤ c'.toNat ∧ c'.toNat ≤ 122)) : c = c' := by
  rcases lowerC_cases c with h2 | h2
  · rw [← h, h2]
  · exfalso
    rw [h] at h2
    exact hn ⟨by omega, by omega⟩

/-- Helper: the first component of breakOn contains no matching character. -/
theorem breakOn_fst (p : Char → Bool) : ∀ (l : Str), ∀ c ∈ (breakOn p l).1, ¬ p c = true := by
  intro l
  induction l with
  | nil => intro c hc; simp [breakOn] at hc
  | cons x xs ih =>
    intro c hc
    by_cases hx : p x = true
    · rw [breakOn_pos hx] at hc
      simp at hc
    · rw [breakOn_cons_neg hx] at hc
      rcases List.mem_cons.mp hc with hc | hc
      · rw [hc]; exact hx
      · exact ih c hc

/-- Helper: breakOn splits its input into its two components. -/
theorem breakOn_join (p : Char → Bool) : ∀ (l : Str), (breakOn p l).1 ++ (breakOn p l).2 = l := by
  intro l
  induction l with
  | nil => rfl
  | cons x xs ih =>
    by_cases hx : p x = true
    · rw [breakOn_pos hx]
      rfl
    · rw [breakOn_cons_neg hx]
      simp [ih]

/-- Helper: the second component of breakOn is empty or starts with a
matching character. -/
theorem breakOn_snd (p : Char → Bool) : ∀ (l : Str),
    (breakOn p l).2 = [] ∨ ∃ c t, (breakOn p l).2 = c :: t ∧ p c = true := by
  intro l
  induction l with
  | nil => left; rfl
  | cons x xs ih =>
    by_cases hx : p x = true
    · right
      exact ⟨x, xs, by rw [breakOn_pos hx], hx⟩
    · rw [breakOn_cons_neg hx]
      exact ih

/-- Helper: characters of a joinSep image are the separator or part
characters. -/
theorem mem_joinSep (sep : Char) : ∀ (parts : List Str) (c : Char), c ∈ joinSep sep parts →
    c = sep ∨ ∃ part ∈ parts, c ∈ part := by
  intro parts
  induction parts with
  | nil => intro c hc; simp [joinSep] at hc
  | cons p ps ih =>
    intro c hc
    cases ps with
    | nil =>
      right
      exact ⟨p, by simp, by simpa [joinSep] using hc⟩
    | cons q qs =>
      rw [show joinSep sep (p :: q :: qs) = p ++ sep :: joinSep sep (q :: qs) from rfl] at hc
      rcases List.mem_append.mp hc with hc | hc
      · exact Or.inr ⟨p, by simp, hc⟩
      · rcases List.mem_cons.mp hc with hc | hc
        · exact Or.inl hc
        · rcases ih c hc with hl | ⟨part, hp, hcp⟩
          · exact Or.inl hl
          · exact Or.inr ⟨part, by simp [hp], hcp⟩

/-- Helper: pyRstrip output is an initial part of its input. -/
theorem pyRstrip_pre (cs : List Char) (s : Str) : ∃ t, s = pyRstrip cs s ++ t := by
  unfold pyRstrip
  obtain ⟨pre, hpre⟩ : ∃ pre, s.reverse = pre ++ s.reverse.dropWhile (fun c => cs.contains c) := by
    exact ⟨s.reverse.takeWhile (fun c => cs.contains c), (List.takeWhile_append_dropWhile _ _).symm⟩
  refine ⟨pre.reverse, ?_⟩
  have h2 := congrArg List.reverse hpre
  rw [List.reverse_reverse, List.reverse_append] at h2
  exact h2

/-- Helper: dropWhile is idempotent. -/
theorem dropWhile_stable (p : Char → Bool) : ∀ (l : Str),
    List.dropWhile p (List.dropWhile p l) = List.dropWhile p l := by
  intro l
  induction l with
  | nil => rfl
  | cons x xs ih =>
    by_cases hx : p x = true
    · rw [List.dropWhile_cons_of_pos hx]
      exact ih
    · rw [List.dropWhile_cons_of_neg hx, List.dropWhile_cons_of_neg hx]

/-- Helper: pyRstrip is idempotent. -/
theorem pyRstrip_idem (cs : List Char) (s : Str) :
    pyRstrip cs (pyRstrip cs s) = pyRstrip cs s := by
  unfold pyRstrip
  rw [List.reverse_reverse, dropWhile_stable]

/-- Helper: a string containing a non-scheme character is not a scheme name. -/
theorem isSchemeName_false_of_mem {s : Str} {c : Char} (hc : c ∈ s)
    (hns : schemeChars.contains c = false) : isSchemeName s = false := by
  unfold isSchemeName
  cases s with
  | nil => rfl
  | cons x xs =>
    simp only [Bool.and_eq_false_iff]
    right
    rw [List.all_eq_false]
    refine ⟨c, hc, ?_⟩
    intro hmem
    rw [show List.contains schemeChars c = List.elem c schemeChars from rfl] at hns
    rw [List.elem_iff.mpr (by simpa using hmem)] at hns
    exact absurd hns (by simp)

/-- Helper: lowerC shifts an upper-case letter by 32. -/
theorem lowerC_shift {c : Char} (h1 : 65 ≤ c.toNat) (h2 : c.toNat ≤ 90) :
    lowerC c = Char.ofNat (c.toNat + 32) := by
  unfold lowerC Char.toLower
  dsimp only
  rw [if_pos ⟨h1, h2⟩]

/-- Helper: characters with lower-case letter codes are scheme characters. -/
theorem schemeChar_ofNat_mem (m : Nat) (h1 : 97 ≤ m) (h2 : m ≤ 122) :
    schemeChars.contains (Char.ofNat m) = true := by
  interval_cases m <;> decide

/-- Helper: characters with lower-case letter codes pass the scheme head
test. -/
theorem alpha_ofNat (m : Nat) (h1 : 97 ≤ m) (h2 : m ≤ 122) :
    (decide ((Char.ofNat m).toNat < 128) && (Char.ofNat m).isAlpha) = true := by
  interval_cases m <;> decide

/-- Helper: lowerC preserves membership in the scheme alphabet. -/
theorem lowerC_schemeChar {c : Char} (h : schemeChars.contains c = true) :
    schemeChars.contains (lowerC c) = true := by
  rcases lowerC_cases c with h2 | h2
  · rw [h2]
    exact h
  · rw [lowerC_shift h2.2.1 h2.2.2]
    exact schemeChar_ofNat_mem _ (by omega) (by omega)

/-- Helper: lowerS preserves the scheme-name test. -/
theorem isSchemeName_lowerS {s : Str} (h : isSchemeName s = true) :
    isSchemeName (lowerS s) = true := by
  cases s with
  | nil => exact absurd h (by decide)
  | cons c rest =>
    unfold isSchemeName at h ⊢
    rw [show lowerS (c :: rest) = lowerC c :: lowerS rest from rfl]
    simp only [Bool.and_eq_true] at h ⊢
    obtain ⟨⟨hlt, hal⟩, hall⟩ := h
    refine ⟨?_, ?_⟩
    · rcases lowerC_cases c with h2 | h2
      · rw [h2]
        exact ⟨hlt, hal⟩
      · rw [lowerC_shift h2.2.1 h2.2.2]
        have h4 := alpha_ofNat (c.toNat + 32) (by omega) (by omega)
        simp only [Bool.and_eq_true] at h4
        exact h4
    · rw [show lowerC c :: lowerS rest = lowerS (c :: rest) from rfl]
      unfold lowerS
      rw [List.all_map]
      rw [List.all_eq_true] at hall ⊢
      intro d hd
      exact lowerC_schemeChar (hall d hd)

/-- Helper: urlparse keeps the scheme, netloc, query and fragment of urlsplit. -/
theorem urlparseF_keep (w : Str) :
    (urlparseF w).scheme = (urlsplitF w).scheme ∧
    (urlparseF w).netloc = (urlsplitF w).netloc ∧
    (urlparseF w).query = (urlsplitF w).query ∧
    (urlparseF w).fragment = (urlsplitF w).fragment := by
  unfold urlparseF
  dsimp only
  split <;> exact ⟨rfl, rfl, rfl, rfl⟩

/-- Helper: the scheme component of urlsplit. -/
theorem urlsplitF_scheme (w : Str) : (urlsplitF w).scheme = (splitScheme w).1 := rfl

/-- Helper: the first component of splitScheme is empty or an already-lower
scheme name. -/
theorem splitScheme_fst_spec (w : Str) :
    (splitScheme w).1 = [] ∨ (isSchemeName (splitScheme w).1 = true ∧
      lowerS (splitScheme w).1 = (splitScheme w).1) := by
  unfold splitScheme
  dsimp only
  split
  case isTrue h =>
    right
    simp only [Bool.and_eq_true] at h
    exact ⟨isSchemeName_lowerS h.2, lowerS_idem _⟩
  case isFalse h =>
    left
    rfl

/-- Helper: the normalized scheme is empty or an already-lower scheme name. -/
theorem normScheme_spec (u : Str) :
    normScheme u = [] ∨ (isSchemeName (normScheme u) = true ∧
      lowerS (normScheme u) = normScheme u) := by
  have hs : normScheme u = lowerS ((splitScheme (pyStrip u)).1) := by
    unfold normScheme normParsed
    rw [(urlparseF_keep (pyStrip u)).1, urlsplitF_scheme]
  rcases splitScheme_fst_spec (pyStrip u) with h | h
  · left
    rw [hs, h]
    rfl
  · right
    rw [hs, h.2]
    exact ⟨h.1, h.2⟩

/-- Helper: scheme-name characters are scheme characters, hence none of the
URL delimiters. -/
theorem isSchemeName_mem {s : Str} (h : isSchemeName s = true) :
    ∀ c ∈ s, schemeChars.contains c = true := by
  intro c hc
  cases s with
  | nil => simp at hc
  | cons x xs =>
    unfold isSchemeName at h
    simp only [Bool.and_eq_true] at h
    rw [List.all_eq_true] at h
    exact h.2 c hc

/-- Helper: scheme characters are not URL delimiters. -/
theorem schemeChar_not_delim {c : Char} (h : schemeChars.contains c = true) :
    ¬ c = ':' ∧ ¬ c = '/' ∧ ¬ c = '?' ∧ ¬ c = '#' := by
  refine ⟨?_, ?_, ?_, ?_⟩ <;> intro he <;> rw [he] at h <;> revert h <;> decide

/-- Helper: urlsplit as a tuple of its component splitters. -/
theorem urlsplitF_parts (w : Str) :
    urlsplitF w = ⟨(splitScheme w).1, (splitNetloc (splitScheme w).2).1,
      (splitFirst '?' (splitFirst '#' (splitNetloc (splitScheme w).2).2).1).1,
      (splitFirst '?' (splitFirst '#' (splitNetloc (splitScheme w).2).2).1).2,
      (splitFirst '#' (splitNetloc (splitScheme w).2).2).2⟩ := rfl

/-- Helper: an empty scheme part means splitScheme did nothing. -/
theorem splitScheme_fst_nil {w : Str} (h : (splitScheme w).1 = []) :
    splitScheme w = ([], w) := by
  unfold splitScheme at h ⊢
  dsimp only at h ⊢
  split at h
  case isTrue hcond =>
    simp only [Bool.and_eq_true] at hcond
    exfalso
    have h1 := hcond.2
    cases hb : (breakOn (fun c => c = ':') w).1 with
    | nil => rw [hb] at h1; exact absurd h1 (by decide)
    | cons x xs => rw [hb] at h; simp [lowerS] at h
  case isFalse hcond =>
    rw [if_neg hcond]

/-- Helper: netloc and the rest as splitNetloc computes them: either the
input had no double slash and is returned whole, or the rest is empty or
starts with a delimiter. -/
theorem splitNetloc_spec (w : Str) :
    ((splitNetloc w).1 = [] ∧ (splitNetloc w).2 = w) ∨
    ((splitNetloc w).2 = [] ∨ ∃ c t, (splitNetloc w).2 = c :: t ∧
      (c = '/' || c = '?' || c = '#') = true) := by
  unfold splitNetloc
  dsimp only
  split
  · right
    exact breakOn_snd _ _
  · left
    exact ⟨rfl, rfl⟩

/-- Helper: the netloc part of splitNetloc holds no delimiter. -/
theorem splitNetloc_fst_clean (w : Str) :
    ∀ c ∈ (splitNetloc w).1, (c = '/' || c = '?' || c = '#') = false := by
  unfold splitNetloc
  dsimp only
  split
  · intro c hc
    cases hp : (c = '/' || c = '?' || c = '#' : Bool)
    · rfl
    · exact absurd hp (breakOn_fst _ _ c hc)
  · intro c hc
    simp at hc

/-- Helper: lower-casing cannot produce a URL delimiter from a clean
character. -/
theorem lowerC_delim {c0 : Char} (h : lowerC c0 = '/' ∨ lowerC c0 = '?' ∨ lowerC c0 = '#') :
    (c0 = '/' || c0 = '?' || c0 = '#') = true := by
  rcases h with h | h | h
  · rw [lowerC_eq_char h (by decide)]
    decide
  · rw [lowerC_eq_char h (by decide)]
    decide
  · rw [lowerC_eq_char h (by decide)]
    decide

/-- Helper: the normalized netloc holds no URL delimiter. -/
theorem normNetloc_clean (u : Str) :
    ∀ c ∈ normNetloc u, (c = '/' || c = '?' || c = '#') = false := by
  intro c hc
  have hc2 : c ∈ lowerS ((normParsed u).netloc) := by
    unfold normNetloc at hc
    dsimp only at hc
    split at hc
    · exact List.drop_subset _ _ hc
    · exact hc
  obtain ⟨c0, hc0, hceq⟩ := List.mem_map.mp hc2
  have hc0' : c0 ∈ (splitNetloc (splitScheme (pyStrip u)).2).1 := by
    have hk := (urlparseF_keep (pyStrip u)).2.1
    rw [show normParsed u = urlparseF (pyStrip u) from rfl, hk, urlsplitF_parts] at hc0
    exact hc0
  have hclean := splitNetloc_fst_clean _ c0 hc0'
  cases hres : (c = '/' || c = '?' || c = '#' : Bool)
  · rfl
  · exfalso
    simp only [Bool.or_eq_true, decide_eq_true_eq] at hres
    rw [← hceq, or_assoc] at hres
    rw [lowerC_delim hres] at hclean
    exact absurd hclean (by decide)

/-- Helper: the normalized netloc is already lower case. -/
theorem lowerS_normNetloc (u : Str) : lowerS (normNetloc u) = normNetloc u := by
  unfold normNetloc
  dsimp only
  split
  · unfold lowerS
    rw [List.map_drop]
    rw [show List.map lowerC (List.map lowerC ((normParsed u).netloc)) = lowerS (lowerS ((normParsed u).netloc)) from rfl, lowerS_idem]
    rfl
  · exact lowerS_idem _

/-- Helper: the first part of splitFirst is free of the separator. -/
theorem splitFirst_fst_clean (sep : Char) (w : Str) :
    ∀ c ∈ (splitFirst sep w).1, ¬ c = sep := by
  intro c hc he
  have h := breakOn_fst (fun c => c = sep) w c hc
  simp [he] at h

/-- Helper: the first part of splitFirst is an initial part of the input. -/
theorem splitFirst_fst_pre (sep : Char) (w : Str) :
    ∃ t, w = (splitFirst sep w).1 ++ t :=
  ⟨(breakOn (fun c => c = sep) w).2, (breakOn_join _ w).symm⟩

/-- Helper: initial parts are subsets. -/
theorem pre_sub {a w : Str} (h : ∃ t, w = a ++ t) : ∀ c ∈ a, c ∈ w := by
  obtain ⟨t, ht⟩ := h
  intro c hc
  rw [ht]
  exact List.mem_append_left _ hc

/-- Helper: the last path segment closes the path. -/
theorem lastSeg_join (p : Str) :
    (p.reverse.dropWhile (fun c => c ≠ '/')).reverse ++
      (p.reverse.takeWhile (fun c => c ≠ '/')).reverse = p := by
  have h := List.takeWhile_append_dropWhile (fun c => (c ≠ '/' : Bool)) p.reverse
  have h2 := congrArg List.reverse h
  rw [List.reverse_append, List.reverse_reverse] at h2
  exact h2

/-- Helper: the path part of splitParams is an initial part of the path. -/
theorem splitParams_fst_pre (p : Str) : ∃ t, p = (splitParams p).1 ++ t := by
  unfold splitParams
  dsimp only
  split
  · refine ⟨(breakOn (fun c => c = ';') ((p.reverse.takeWhile (fun c => c ≠ '/')).reverse)).2, ?_⟩
    have hjoin := breakOn_join (fun c => c = ';') ((p.reverse.takeWhile (fun c => c ≠ '/')).reverse)
    have hpre : p.take (p.length - ((p.reverse.takeWhile (fun c => c ≠ '/')).reverse).length)
        = (p.reverse.dropWhile (fun c => c ≠ '/')).reverse := by
      have hl := lastSeg_join p
      have hlen : p.length - ((p.reverse.takeWhile (fun c => c ≠ '/')).reverse).length
          = ((p.reverse.dropWhile (fun c => c ≠ '/')).reverse).length := by
        have := congrArg List.length hl
        simp only [List.length_append] at this
        omega
      rw [hlen]
      calc List.take ((p.reverse.dropWhile (fun c => c ≠ '/')).reverse).length p
          = List.take ((p.reverse.dropWhile (fun c => c ≠ '/')).reverse).length
              ((p.reverse.dropWhile (fun c => c ≠ '/')).reverse
                ++ (p.reverse.takeWhile (fun c => c ≠ '/')).reverse) := by rw [lastSeg_join p]
        _ = (p.reverse.dropWhile (fun c => c ≠ '/')).reverse := List.take_left _ _
    rw [hpre, List.append_assoc, hjoin, lastSeg_join p]
  · exact ⟨[], by simp⟩

/-- Helper: urlparse path is an initial part of urlsplit path. -/
theorem urlparseF_path_pre (w : Str) :
    ∃ t, (urlsplitF w).path = (urlparseF w).path ++ t := by
  unfold urlparseF
  dsimp only
  split
  · exact splitParams_fst_pre _
  · exact ⟨[], by simp⟩

/-- Helper: pyRstrip output characters come from the input. -/
theorem pyRstrip_sub (cs : List Char) (s : Str) : ∀ c ∈ pyRstrip cs s, c ∈ s :=
  pre_sub (pyRstrip_pre cs s)

/-- Helper: the normalized path is an initial part of the urlsplit path of
the stripped input. -/
theorem normPath_pre (u : Str) :
    ∃ t, (urlsplitF (pyStrip u)).path = normPath u ++ t := by
  obtain ⟨t1, ht1⟩ := urlparseF_path_pre (pyStrip u)
  obtain ⟨t2, ht2⟩ := pyRstrip_pre ['/'] ((urlparseF (pyStrip u)).path)
  refine ⟨t2 ++ t1, ?_⟩
  rw [ht1]
  rw [show (urlparseF (pyStrip u)).path = pyRstrip ['/'] ((urlparseF (pyStrip u)).path) ++ t2 from ht2]
  rw [show normPath u = pyRstrip ['/'] ((urlparseF (pyStrip u)).path) from rfl]
  simp

/-- Helper: the urlsplit path holds neither question mark nor hash. -/
theorem urlsplit_path_clean (w : Str) :
    ∀ c ∈ (urlsplitF w).path, ¬ c = '?' ∧ ¬ c = '#' := by
  intro c hc
  rw [urlsplitF_parts] at hc
  refine ⟨splitFirst_fst_clean '?' _ c hc, ?_⟩
  have hsub := pre_sub (splitFirst_fst_pre '?' ((splitFirst '#' (splitNetloc (splitScheme w).2).2).1)) c hc
  exact splitFirst_fst_clean '#' _ c hsub

/-- Helper: the normalized path holds neither question mark nor hash. -/
theorem normPath_clean (u : Str) : ∀ c ∈ normPath u, ¬ c = '?' ∧ ¬ c = '#' := by
  intro c hc
  exact urlsplit_path_clean (pyStrip u) c (pre_sub (normPath_pre u) c hc)

/-- Helper: characters of the normalized query are qp characters, ampersands
or equals signs. -/
theorem normQuery_chars (u : Str) :
    ∀ c ∈ normQuery u, isQpChar c = true ∨ c = '&' ∨ c = '=' := by
  intro c hc
  unfold normQuery at hc
  split at hc
  · split at hc
    · unfold urlencodeG at hc
      rcases mem_joinSep '&' _ c hc with h | ⟨part, hp, hcp⟩
      · exact Or.inr (Or.inl h)
      · obtain ⟨kv, _, hpart⟩ := List.mem_flatMap.mp hp
        obtain ⟨v, _, hv⟩ := List.mem_map.mp hpart
        rw [← hv] at hcp
        rcases List.mem_append.mp hcp with h2 | h2
        · exact Or.inl (quotePlus_chars _ c h2)
        · rcases List.mem_cons.mp h2 with h3 | h3
          · exact Or.inr (Or.inr h3)
          · exact Or.inl (quotePlus_chars _ c h3)
    · simp at hc
  · simp at hc

/-- Helper: the normalized query holds neither hash nor question mark. -/
theorem normQuery_clean (u : Str) : ∀ c ∈ normQuery u, ¬ c = '#' ∧ ¬ c = '?' := by
  intro c hc
  rcases normQuery_chars u c hc with h | h | h
  · have h2 := isQpChar_not_special c h
    exact ⟨h2.2.2.1, h2.2.2.2⟩
  · rw [h]
    exact ⟨by decide, by decide⟩
  · rw [h]
    exact ⟨by decide, by decide⟩

/-- Helper: the first element surviving dropWhile fails the test. -/
theorem dropWhile_head (p : Char → Bool) : ∀ l : Str,
    l.dropWhile p = [] ∨ ∃ c t, l.dropWhile p = c :: t ∧ p c = false := by
  intro l
  induction l with
  | nil => left; rfl
  | cons x xs ih =>
    by_cases hx : p x = true
    · rw [List.dropWhile_cons_of_pos hx]
      exact ih
    · rw [List.dropWhile_cons_of_neg hx]
      right
      exact ⟨x, xs, rfl, by cases h : p x; rfl; exact absurd h hx⟩

/-- Helper: pyRstrip output is empty or ends in an unstripped character. -/
theorem pyRstrip_last (cs : List Char) (s : Str) :
    pyRstrip cs s = [] ∨ ∃ c t, pyRstrip cs s = t ++ [c] ∧ cs.contains c = false := by
  unfold pyRstrip
  rcases dropWhile_head (fun c => cs.contains c) s.reverse with h | ⟨c, t, h, hc⟩
  · left
    rw [h]
    rfl
  · right
    exact ⟨c, t.reverse, by rw [h]; simp, hc⟩

/-- Helper: the normalized path is empty or does not end with a slash. -/
theorem normPath_last (u : Str) :
    normPath u = [] ∨ ∃ c t, normPath u = t ++ [c] ∧ ¬ c = '/' := by
  rcases pyRstrip_last ['/'] ((normParsed u).path) with h | ⟨c, t, h, hc⟩
  · exact Or.inl h
  · refine Or.inr ⟨c, t, h, ?_⟩
    intro he
    rw [he] at hc
    exact absurd hc (by decide)

/-- Helper: when the netloc part is taken, the urlsplit path is empty or
starts with a slash. -/
theorem urlsplit_path_headJoin (w : Str)
    (h : (splitNetloc (splitScheme w).2).2 = [] ∨
      ∃ c t, (splitNetloc (splitScheme w).2).2 = c :: t ∧
        (c = '/' || c = '?' || c = '#') = true) :
    (urlsplitF w).path = [] ∨ (urlsplitF w).path.take 1 = str ("/") := by
  rw [urlsplitF_parts]
  dsimp only
  rcases h with h | ⟨c, t, h, hc⟩
  · rw [h]
    left
    rfl
  · rw [h]
    by_cases h3 : c = '#'
    · rw [show splitFirst '#' (c :: t) = ([], t) from by unfold splitFirst; rw [breakOn_pos (by simp [h3])]; rfl]
      left
      rfl
    · rw [show (splitFirst '#' (c :: t)).1 = c :: (breakOn (fun d => d = '#') t).1 from by unfold splitFirst; rw [breakOn_cons_neg (by simp [h3])]]
      by_cases h4 : c = '?'
      · rw [show splitFirst '?' (c :: (breakOn (fun d => d = '#') t).1) = ([], (breakOn (fun d => d = '#') t).1) from by unfold splitFirst; rw [breakOn_pos (by simp [h4])]; rfl]
        left
        rfl
      · rw [show (splitFirst '?' (c :: (breakOn (fun d => d = '#') t).1)).1 = c :: (breakOn (fun d => d = '?') (breakOn (fun d => d = '#') t).1).1 from by unfold splitFirst; rw [breakOn_cons_neg (by simp [h4])]]
        right
        simp only [Bool.or_eq_true, decide_eq_true_eq] at hc
        rcases hc with (hc | hc) | hc
        · rw [hc]
          rfl
        · exact absurd hc h4
        · exact absurd hc h3

/-- Helper: an initial part of a list that is empty or starts with a slash
is itself empty or starts with a slash. -/
theorem pre_head {a w : Str} (h : ∃ t, w = a ++ t)
    (hw : w = [] ∨ w.take 1 = str ("/")) :
    a = [] ∨ a.take 1 = str ("/") := by
  obtain ⟨t, ht⟩ := h
  rcases hw with hw | hw
  · rw [hw] at ht
    exact Or.inl (List.append_eq_nil.mp ht.symm).1
  · cases a with
    | nil => exact Or.inl rfl
    | cons x xs =>
      right
      rw [ht] at hw
      simpa using hw

/-- Helper: a nonempty normalized netloc means the path is empty or starts
with a slash. -/
theorem normPath_head (u : Str) (h : normNetloc u ≠ []) :
    normPath u = [] ∨ (normPath u).take 1 = str ("/") := by
  have hN0 : (splitNetloc (splitScheme (pyStrip u)).2).1 ≠ [] := by
    intro hnil
    apply h
    unfold normNetloc
    dsimp only
    have hln : lowerS ((normParsed u).netloc) = [] := by
      rw [show normParsed u = urlparseF (pyStrip u) from rfl, (urlparseF_keep (pyStrip u)).2.1, urlsplitF_parts]
      dsimp only
      rw [hnil]
      rfl
    rw [hln]
    rfl
  rcases splitNetloc_spec (splitScheme (pyStrip u)).2 with ⟨h1, _⟩ | hrest
  · exact absurd h1 hN0
  · exact pre_head (normPath_pre u) (urlsplit_path_headJoin (pyStrip u) hrest)

/-- Helper: splitScheme leaves input whose first character cannot start a
scheme untouched. -/
theorem splitScheme_nil_head (v : Str)
    (h : ∀ c t, v = c :: t → (decide (c.toNat < 128) && c.isAlpha) = false) :
    splitScheme v = ([], v) := by
  unfold splitScheme
  dsimp only
  rcases breakOn_snd (fun c => c = ':') v with h2 | ⟨c, t, h2, _⟩
  · rw [if_neg]
    simp [h2]
  · cases h1 : (breakOn (fun c => c = ':') v).1 with
    | nil =>
      rw [if_neg]
      simp [show isSchemeName ([] : Str) = false from rfl]
    | cons x xs =>
      have hv : v = x :: (xs ++ (breakOn (fun c => c = ':') v).2) := by
        conv_lhs => rw [← breakOn_join (fun c => c = ':') v]
        rw [h1]
        simp
      have hx := h x _ hv
      have hcond : isSchemeName (x :: xs) = false := by
        unfold isSchemeName
        simp [hx]
      rw [if_neg]
      simp [hcond]

/-- Helper: splitScheme recovers an already-lower scheme name followed by a
colon. -/
theorem splitScheme_cons (S rest : Str) (hS : isSchemeName S = true)
    (hlow : lowerS S = S) : splitScheme (S ++ ':' :: rest) = (S, rest) := by
  unfold splitScheme
  dsimp only
  have hclean : ∀ c ∈ S, ¬ ((c = ':' : Bool)) = true := by
    intro c hc he
    have h2 := (schemeChar_not_delim (isSchemeName_mem hS c hc)).1
    simp at he
    exact h2 he
  rw [breakOn_append _ S (':' :: rest) hclean, breakOn_pos (by simp)]
  dsimp only
  rw [List.append_nil]
  rw [if_pos (by simp [hS])]
  rw [hlow]
  rfl

/-- Helper: splitScheme at an explicit first colon, scheme-name test
passing. -/
theorem splitScheme_colon_true (a rest : Str)
    (hclean : ∀ c ∈ a, ¬ ((c = ':' : Bool)) = true) (hsn : isSchemeName a = true) :
    splitScheme (a ++ ':' :: rest) = (lowerS a, rest) := by
  unfold splitScheme
  dsimp only
  rw [breakOn_append _ a _ hclean, breakOn_pos (by simp)]
  dsimp only
  rw [List.append_nil]
  rw [if_pos (by simp [hsn])]
  rfl

/-- Helper: splitScheme at an explicit first colon, scheme-name test
failing. -/
theorem splitScheme_colon_false (a rest : Str)
    (hclean : ∀ c ∈ a, ¬ ((c = ':' : Bool)) = true) (hsn : isSchemeName a = false) :
    splitScheme (a ++ ':' :: rest) = ([], a ++ ':' :: rest) := by
  unfold splitScheme
  dsimp only
  rw [breakOn_append _ a _ hclean, breakOn_pos (by simp)]
  dsimp only
  rw [List.append_nil]
  rw [if_neg (by simp [hsn])]

/-- Helper: appending an optional query part to a scheme-less string keeps it
scheme-less. -/
theorem splitScheme_app_nil (P Q t : Str)
    (hfail : splitScheme (P ++ t) = ([], P ++ t)) :
    splitScheme (P ++ (if Q = [] then [] else '?' :: Q)) =
      ([], P ++ (if Q = [] then [] else '?' :: Q)) := by
  rcases breakOn_snd (fun c => c = ':') P with hP2 | ⟨c, t2, hP2, hc⟩
  · -- no colon occurs in P
    have hfst : (breakOn (fun c => c = ':') P).1 = P := by
      have hj := breakOn_join (fun c => c = ':') P
      rw [hP2, List.append_nil] at hj
      exact hj
    have hclean : ∀ c ∈ P, ¬ ((c = ':' : Bool)) = true := by
      intro c hcm
      rw [← hfst] at hcm
      exact breakOn_fst _ _ c hcm
    by_cases hQ : Q = []
    · rw [if_pos hQ, List.append_nil]
      unfold splitScheme
      dsimp only
      rw [if_neg]
      rw [breakOn_none _ P hclean]
      simp
    · rw [if_neg hQ]
      unfold splitScheme
      dsimp only
      rw [breakOn_append _ P ('?' :: Q) hclean, breakOn_cons_neg (by simp)]
      rcases breakOn_snd (fun c => c = ':') Q with hQ2 | ⟨c, t2, hQ2, _⟩
      · rw [if_neg]
        simp [hQ2]
      · rw [if_neg]
        rw [hQ2]
        have hmem : ('?' : Char) ∈ P ++ '?' :: (breakOn (fun c => c = ':') Q).1 :=
          List.mem_append_right _ (List.mem_cons_self _ _)
        rw [isSchemeName_false_of_mem hmem (by decide)]
        simp
  · -- the first colon of P sits after the colon-free part a
    simp only [decide_eq_true_eq] at hc
    subst hc
    obtain ⟨a, ha⟩ : ∃ a, (breakOn (fun c => c = ':') P).1 = a := ⟨_, rfl⟩
    have hj : a ++ ':' :: t2 = P := by
      rw [← ha, ← hP2]
      exact breakOn_join _ P
    have hclean : ∀ c ∈ a, ¬ ((c = ':' : Bool)) = true := by
      intro c hcm
      rw [← ha] at hcm
      exact breakOn_fst _ P c hcm
    have hsn : isSchemeName a = false := by
      cases hcase : isSchemeName a with
      | false => rfl
      | true =>
        exfalso
        rw [← hj, List.append_assoc] at hfail
        simp only [List.cons_append] at hfail
        rw [splitScheme_colon_true a _ hclean hcase] at hfail
        have hsnd := congrArg Prod.snd hfail
        dsimp only at hsnd
        have hlen := congrArg List.length hsnd
        simp only [List.length_append, List.length_cons] at hlen
        omega
    rw [← hj, List.append_assoc]
    simp only [List.cons_append]
    exact splitScheme_colon_false a _ hclean hsn

/-- Helper: the normalized scheme as lowerS of the splitScheme part. -/
theorem normScheme_eq (u : Str) :
    normScheme u = lowerS ((splitScheme (pyStrip u)).1) := by
  unfold normScheme normParsed
  rw [(urlparseF_keep (pyStrip u)).1, urlsplitF_scheme]

/-- Helper: with an empty normalized scheme, path plus optional query stays
scheme-less under splitScheme. -/
theorem noscheme_opt (u : Str) (hS : normScheme u = []) :
    splitScheme (normPath u ++ (if normQuery u = [] then [] else '?' :: normQuery u)) =
      ([], normPath u ++ (if normQuery u = [] then [] else '?' :: normQuery u)) := by
  have hS0 : (splitScheme (pyStrip u)).1 = [] := by
    rw [normScheme_eq] at hS
    exact List.map_eq_nil_iff.mp hS
  have hid : splitScheme (pyStrip u) = ([], pyStrip u) := splitScheme_fst_nil hS0
  by_cases hP : normPath u = []
  · rw [hP]
    simp only [List.nil_append]
    by_cases hQ : normQuery u = []
    · rw [if_pos hQ]
      rfl
    · rw [if_neg hQ]
      apply splitScheme_nil_head
      intro c t hE
      have hc : c = '?' := (List.cons.injEq _ _ _ _ ▸ hE).1.symm
      rw [hc]
      decide
  · obtain ⟨x, xs, hxx⟩ : ∃ x xs, normPath u = x :: xs := by
      cases hP2 : normPath u with
      | nil => exact absurd hP2 hP
      | cons y ys => exact ⟨y, ys, rfl⟩
    by_cases hx : x = '/'
    · apply splitScheme_nil_head
      intro c t hE
      rw [hxx] at hE
      simp only [List.cons_append] at hE
      have hc : c = x := ((List.cons.injEq _ _ _ _).mp hE.symm).1
      rw [hc, hx]
      decide
    · rcases splitNetloc_spec (splitScheme (pyStrip u)).2 with ⟨_, hn2⟩ | hrest
      · obtain ⟨t1, ht1⟩ := splitFirst_fst_pre '#' ((splitNetloc (splitScheme (pyStrip u)).2).2)
        obtain ⟨t2, ht2⟩ := splitFirst_fst_pre '?' ((splitFirst '#' ((splitNetloc (splitScheme (pyStrip u)).2).2)).1)
        obtain ⟨t3, ht3⟩ := normPath_pre u
        have hsnd : (splitScheme (pyStrip u)).2 = pyStrip u := by rw [hid]
        have hfull : pyStrip u = normPath u ++ (t3 ++ (t2 ++ t1)) := by
          conv_lhs => rw [← hsnd, ← hn2]
          rw [ht1, ht2]
          rw [show (splitFirst '?' ((splitFirst '#' ((splitNetloc (splitScheme (pyStrip u)).2).2)).1)).1 = (urlsplitF (pyStrip u)).path from by rw [urlsplitF_parts]]
          rw [ht3]
          simp [List.append_assoc]
        rw [hfull] at hid
        exact splitScheme_app_nil (normPath u) (normQuery u) (t3 ++ (t2 ++ t1)) hid
      · rcases pre_head (normPath_pre u) (urlsplit_path_headJoin (pyStrip u) hrest) with h | h
        · exact absurd h hP
        · exfalso
          rw [hxx] at h
          rw [show str ("/") = ['/'] from rfl] at h
          have : x = '/' := by simpa using h
          exact hx this

/-- Helper: urlsplit recovers the components that urlunparse assembled, for
components shaped as the normalizer produces them. -/
theorem urlsplitF_urlunparseF (S N P Q : Str)
    (hS : S = [] ∨ (isSchemeName S = true ∧ lowerS S = S))
    (hN : ∀ c ∈ N, (c = '/' || c = '?' || c = '#') = false)
    (hP : ∀ c ∈ P, ¬ c = '?' ∧ ¬ c = '#')
    (hQ : ∀ c ∈ Q, ¬ c = '#' ∧ ¬ c = '?')
    (hPhead : N ≠ [] → (P = [] ∨ P.take 1 = str ("/")))
    (hPlast : P = [] ∨ ∃ c t, P = t ++ [c] ∧ ¬ c = '/')
    (hns : S = [] → splitScheme (P ++ (if Q = [] then [] else '?' :: Q)) =
      ([], P ++ (if Q = [] then [] else '?' :: Q))) :
    urlsplitF (urlunparseF S N P [] Q []) = ⟨S, N, P, Q, []⟩ := by
  have hPclean : ∀ c ∈ P, ¬ ((c = '?' : Bool)) = true := by
    intro c hc
    simpa using (hP c hc).1
  have hoptHash : ∀ c ∈ P ++ (if Q = [] then [] else '?' :: Q), ¬ ((c = '#' : Bool)) = true := by
    intro c hc
    rcases List.mem_append.mp hc with h | h
    · simpa using (hP c h).2
    · by_cases hQ0 : Q = []
      · rw [if_pos hQ0] at h
        simp at h
      · rw [if_neg hQ0] at h
        rcases List.mem_cons.mp h with h2 | h2
        · rw [h2]
          decide
        · simpa using (hQ c h2).1
  have hfrag : splitFirst '#' (P ++ (if Q = [] then [] else '?' :: Q)) =
      (P ++ (if Q = [] then [] else '?' :: Q), []) := by
    unfold splitFirst
    rw [breakOn_none _ _ hoptHash]
    rfl
  have hq : splitFirst '?' (P ++ (if Q = [] then [] else '?' :: Q)) = (P, Q) := by
    by_cases hQ0 : Q = []
    · rw [if_pos hQ0, List.append_nil]
      unfold splitFirst
      rw [breakOn_none _ _ hPclean, hQ0]
      rfl
    · rw [if_neg hQ0]
      unfold splitFirst
      rw [breakOn_append _ P _ hPclean, breakOn_pos (by decide)]
      simp
  have hNclean : ∀ c ∈ N, ¬ ((c = '/' || c = '?' || c = '#' : Bool)) = true := by
    intro c hc
    rw [hN c hc]
    simp
  by_cases hc1 : N ≠ [] ∨ P.take 2 = str ("//")
  · -- a netloc part is emitted
    have hPheadAB : P = [] ∨ P.take 1 = str ("/") := by
      rcases hc1 with h | h
      · exact hPhead h
      · right
        have h2 : P.take 1 = (P.take 2).take 1 := by
          rw [List.take_take]
          norm_num
        rw [h2, h]
        rfl
    have hPP : (if P ≠ [] ∧ P.take 1 ≠ str ("/") then '/' :: P else P) = P := by
      rcases hPheadAB with h | h
      · rw [if_neg]
        simp [h]
      · rw [if_neg]
        simp [h]
    have hbreakPopt : breakOn (fun c => c = '/' || c = '?' || c = '#')
        (P ++ (if Q = [] then [] else '?' :: Q)) =
        ([], P ++ (if Q = [] then [] else '?' :: Q)) := by
      cases hxP : P with
      | nil =>
        simp only [List.nil_append]
        by_cases hQ0 : Q = []
        · rw [if_pos hQ0]
          rfl
        · rw [if_neg hQ0]
          exact breakOn_pos (by decide) _
      | cons x xs =>
        have hx : x = '/' := by
          rcases hPheadAB with h | h
          · rw [hxP] at h
            simp at h
          · rw [hxP, show str ("/") = ['/'] from rfl] at h
            simpa using h
        simp only [List.cons_append]
        exact breakOn_pos (by rw [hx]; decide) _
    have hnetAB : splitNetloc ('/' :: '/' :: (N ++ (P ++ (if Q = [] then [] else '?' :: Q)))) =
        (N, P ++ (if Q = [] then [] else '?' :: Q)) := by
      unfold splitNetloc
      dsimp only
      rw [if_pos (by rfl)]
      rw [show List.drop 2 ('/' :: '/' :: (N ++ (P ++ (if Q = [] then [] else '?' :: Q)))) = N ++ (P ++ (if Q = [] then [] else '?' :: Q)) from rfl]
      rw [breakOn_append _ N _ hNclean, hbreakPopt]
      simp
    have hv : urlunparseF S N P [] Q [] =
        (if S ≠ [] then S ++ ':' :: (str ("//") ++ N ++ P) else str ("//") ++ N ++ P)
          ++ (if Q = [] then [] else '?' :: Q) := by
      unfold urlunparseF
      dsimp only
      have hpzero : (if ([] : Str) ≠ [] then P ++ ';' :: ([] : List Char) else P) = P := by
        simp
      rw [hpzero, if_pos hc1, hPP]
      by_cases hQ0 : Q = [] <;> simp [hQ0]
    rcases hS with hS0 | ⟨hsn, hlow⟩
    · rw [hv, if_neg (by simp [hS0])]
      have hw : (str ("//") ++ N ++ P) ++ (if Q = [] then [] else '?' :: Q) =
          '/' :: '/' :: (N ++ (P ++ (if Q = [] then [] else '?' :: Q))) := by
        rw [show str ("//") = ['/', '/'] from rfl]
        simp [List.append_assoc]
      rw [hw, urlsplitF_parts]
      rw [splitScheme_nil_head _ (by intro c t hE; injection hE with h1 _; rw [← h1]; decide)]
      dsimp only
      rw [hnetAB]
      dsimp only
      rw [hfrag]
      dsimp only
      rw [hq, hS0]
    · have hSne : S ≠ [] := by
        intro h
        rw [h] at hsn
        exact absurd hsn (by decide)
      rw [hv, if_pos hSne]
      have hw : (S ++ ':' :: (str ("//") ++ N ++ P)) ++ (if Q = [] then [] else '?' :: Q) =
          S ++ ':' :: ('/' :: '/' :: (N ++ (P ++ (if Q = [] then [] else '?' :: Q)))) := by
        rw [show str ("//") = ['/', '/'] from rfl]
        simp [List.append_assoc]
      rw [hw, urlsplitF_parts, splitScheme_cons _ _ hsn hlow]
      dsimp only
      rw [hnetAB]
      dsimp only
      rw [hfrag]
      dsimp only
      rw [hq]
  · -- no netloc part: the path is emitted bare
    have hv2 : urlunparseF S N P [] Q [] =
        (if S ≠ [] then S ++ ':' :: P else P) ++ (if Q = [] then [] else '?' :: Q) := by
      unfold urlunparseF
      dsimp only
      have hpzero : (if ([] : Str) ≠ [] then P ++ ';' :: ([] : List Char) else P) = P := by
        simp
      rw [hpzero, if_neg hc1]
      by_cases hQ0 : Q = [] <;> simp [hQ0]
    push_neg at hc1
    have htake2 : ¬ (P ++ (if Q = [] then [] else '?' :: Q)).take 2 = str ("//") := by
      cases hxP : P with
      | nil =>
        simp only [List.nil_append]
        by_cases hQ0 : Q = []
        · rw [if_pos hQ0]
          decide
        · rw [if_neg hQ0]
          intro hE
          rw [show List.take 2 ('?' :: Q) = '?' :: Q.take 1 from rfl,
            show str ("//") = ['/', '/'] from rfl] at hE
          injection hE with h1 _
          exact absurd h1 (by decide)
      | cons x xs =>
        cases hxs : xs with
        | nil =>
          have hxne : ¬ x = '/' := by
            rcases hPlast with h | ⟨c, t, hPe, hc⟩
            · rw [hxP, hxs] at h
              simp at h
            · rw [hxP, hxs] at hPe
              cases t with
              | nil =>
                simp at hPe
                rw [hPe]
                exact hc
              | cons y ys =>
                have h2 := congrArg List.length hPe
                simp at h2
          simp only [List.cons_append, List.nil_append]
          intro hE
          rw [show List.take 2 (x :: (if Q = [] then [] else '?' :: Q)) = x :: List.take 1 (if Q = [] then [] else '?' :: Q) from rfl,
            show str ("//") = ['/', '/'] from rfl] at hE
          injection hE with h1 _
          exact hxne h1
        | cons y ys =>
          simp only [List.cons_append]
          intro hE
          rw [show List.take 2 (x :: y :: (ys ++ (if Q = [] then [] else '?' :: Q))) = [x, y] from rfl] at hE
          apply hc1.2
          rw [hxP, hxs, show List.take 2 (x :: y :: ys) = [x, y] from rfl]
          exact hE
    have hnetC : splitNetloc (P ++ (if Q = [] then [] else '?' :: Q)) =
        ([], P ++ (if Q = [] then [] else '?' :: Q)) := by
      unfold splitNetloc
      dsimp only
      rw [if_neg htake2]
    rcases hS with hS0 | ⟨hsn, hlow⟩
    · rw [hv2, if_neg (by simp [hS0])]
      rw [urlsplitF_parts, hns hS0]
      dsimp only
      rw [hnetC]
      dsimp only
      rw [hfrag]
      dsimp only
      rw [hq, hS0, hc1.1]
    · have hSne : S ≠ [] := by
        intro h
        rw [h] at hsn
        exact absurd hsn (by decide)
      rw [hv2, if_pos hSne]
      have hw : (S ++ ':' :: P) ++ (if Q = [] then [] else '?' :: Q) =
          S ++ ':' :: (P ++ (if Q = [] then [] else '?' :: Q)) := by
        simp [List.append_assoc]
      rw [hw, urlsplitF_parts, splitScheme_cons _ _ hsn hlow]
      dsimp only
      rw [hnetC]
      dsimp only
      rw [hfrag]
      dsimp only
      rw [hq, hc1.1]

/-- Helper: urlsplit of a normalized URL recovers the normalized components
and an empty fragment. -/
theorem urlsplitF_normalizeUrl (u : Str) :
    urlsplitF (normalizeUrl u) =
      ⟨normScheme u, normNetloc u, normPath u, normQuery u, []⟩ := by
  unfold normalizeUrl
  exact urlsplitF_urlunparseF _ _ _ _ (normScheme_spec u) (normNetloc_clean u)
    (normPath_clean u) (normQuery_clean u) (normPath_head u) (normPath_last u)
    (noscheme_opt u)

/-- Helper: invariants of the filtered parameter groups: distinct names and
nonempty value lists. -/
theorem filteredParams_inv (u : Str) :
    ((filteredParams u).map Prod.fst).Nodup ∧ ∀ kv ∈ filteredParams u, kv.2 ≠ [] := by
  have h := groupPairs_inv (parseQsl ((normParsed u).query))
  constructor
  · exact List.Nodup.sublist (List.Sublist.map _ (List.filter_sublist _)) h.1
  · intro kv hkv
    exact h.2 kv (List.mem_of_mem_filter hkv)

/-- Helper: a nonempty grouped dictionary urlencodes to a nonempty string. -/
theorem urlencodeG_ne_nil (d : List (Str × List Str)) (hd : d ≠ [])
    (hne : ∀ kv ∈ d, kv.2 ≠ []) : urlencodeG d ≠ [] := by
  unfold urlencodeG
  cases d with
  | nil => exact absurd rfl hd
  | cons kv ds =>
    cases hv : kv.2 with
    | nil => exact absurd hv (hne kv (by simp))
    | cons v vs =>
      rw [show (kv :: ds).flatMap (fun kv => kv.2.map (fun v => quotePlus kv.1 ++ '=' :: quotePlus v)) = (kv.2.map (fun v => quotePlus kv.1 ++ '=' :: quotePlus v)) ++ ds.flatMap (fun kv => kv.2.map (fun v => quotePlus kv.1 ++ '=' :: quotePlus v)) from by simp]
      rw [hv]
      rw [show ((v :: vs).map (fun v => quotePlus kv.1 ++ '=' :: quotePlus v)) ++ ds.flatMap (fun kv => kv.2.map (fun v => quotePlus kv.1 ++ '=' :: quotePlus v)) = (quotePlus kv.1 ++ '=' :: quotePlus v) :: (vs.map (fun v => quotePlus kv.1 ++ '=' :: quotePlus v) ++ ds.flatMap (fun kv => kv.2.map (fun v => quotePlus kv.1 ++ '=' :: quotePlus v))) from by simp]
      cases hrest : vs.map (fun v => quotePlus kv.1 ++ '=' :: quotePlus v) ++ ds.flatMap (fun kv => kv.2.map (fun v => quotePlus kv.1 ++ '=' :: quotePlus v)) with
      | nil =>
        rw [show joinSep '&' [quotePlus kv.1 ++ '=' :: quotePlus v] = quotePlus kv.1 ++ '=' :: quotePlus v from rfl]
        simp
      | cons piece ps =>
        rw [show joinSep '&' ((quotePlus kv.1 ++ '=' :: quotePlus v) :: piece :: ps) = (quotePlus kv.1 ++ '=' :: quotePlus v) ++ '&' :: joinSep '&' (piece :: ps) from rfl]
        simp

/-- Helper: parse_qsl of the normalized query yields the flattened filtered
parameter groups. -/
theorem parseQsl_normQuery (u : Str) :
    parseQsl (normQuery u) = flattenG (filteredParams u) := by
  unfold normQuery
  split
  case isTrue hq0 =>
    split
    case isTrue hfp => exact parseQsl_urlencodeG _ (filteredParams_inv u).2
    case isFalse hfp =>
      have hnil : filteredParams u = [] := by
        by_contra h
        exact hfp h
      rw [hnil]
      rfl
  case isFalse hq0 =>
    have hq : (normParsed u).query = [] := by
      by_contra h
      exact hq0 h
    have hnil : filteredParams u = [] := by
      unfold filteredParams
      rw [hq]
      rfl
    rw [hnil]
    rfl

/-- Helper: a nonempty normalized query comes from a nonempty filtered
dictionary of a nonempty raw query. -/
theorem normQuery_nonempty (u : Str) (h : normQuery u ≠ []) :
    (normParsed u).query ≠ [] ∧ filteredParams u ≠ [] ∧
      normQuery u = urlencodeG (filteredParams u) := by
  by_cases hq : (normParsed u).query ≠ []
  · by_cases hf : filteredParams u ≠ []
    · refine ⟨hq, hf, ?_⟩
      unfold normQuery
      rw [if_pos hq, if_pos hf]
    · exfalso
      apply h
      unfold normQuery
      rw [if_pos hq, if_neg hf]
  · exfalso
    apply h
    unfold normQuery
    rw [if_neg hq]

/-- Helper: the raw query of the re-parse of a whitespace-stable normalized
URL is the normalized query. -/
theorem normParsed_round_query (u : Str)
    (h1 : pyStrip (normalizeUrl u) = normalizeUrl u) :
    (normParsed (normalizeUrl u)).query = normQuery u := by
  unfold normParsed
  rw [h1, (urlparseF_keep _).2.2.1, urlsplitF_normalizeUrl]

/-- Helper: re-normalizing keeps the filtered parameter groups. -/
theorem filteredParams_round (u : Str)
    (h1 : pyStrip (normalizeUrl u) = normalizeUrl u) :
    filteredParams (normalizeUrl u) = filteredParams u := by
  have hq := normParsed_round_query u h1
  have hstep : filteredParams (normalizeUrl u) =
      (parseQs (normQuery u)).filter (fun kv => !(TRACKING.contains (lowerS kv.1))) := by
    unfold filteredParams
    rw [hq]
  rw [hstep]
  by_cases h : normQuery u = []
  · rw [h, show parseQs ([] : Str) = [] from rfl]
    rw [show List.filter (fun kv => !(TRACKING.contains (lowerS kv.1))) ([] : List (Str × List Str)) = [] from rfl]
    unfold normQuery at h
    split at h
    · split at h
      · rename_i hf
        exact absurd h (urlencodeG_ne_nil _ hf (filteredParams_inv u).2)
      · rename_i hf
        have hnil : filteredParams u = [] := by
          by_contra hx
          exact hf hx
        exact hnil.symm
    · rename_i hq0
      have hqe : (normParsed u).query = [] := by
        by_contra hx
        exact hq0 hx
      unfold filteredParams
      rw [hqe]
      rfl
  · obtain ⟨hq0, hf0, heq⟩ := normQuery_nonempty u h
    rw [heq]
    have hround : parseQs (urlencodeG (filteredParams u)) = filteredParams u := by
      unfold parseQs
      rw [parseQsl_urlencodeG _ (filteredParams_inv u).2]
      exact groupPairs_flattenG _ (filteredParams_inv u).1 (filteredParams_inv u).2
    rw [hround]
    unfold filteredParams
    rw [List.filter_filter]
    simp only [Bool.and_self]

/-- Helper: re-normalizing keeps the scheme component. -/
theorem normScheme_round (u : Str)
    (h1 : pyStrip (normalizeUrl u) = normalizeUrl u) :
    normScheme (normalizeUrl u) = normScheme u := by
  show lowerS ((normParsed (normalizeUrl u)).scheme) = normScheme u
  rw [show (normParsed (normalizeUrl u)).scheme = normScheme u from by
    unfold normParsed
    rw [h1, (urlparseF_keep _).1, urlsplitF_normalizeUrl]]
  rcases normScheme_spec u with h | h
  · rw [h]
    rfl
  · exact h.2

/-- Helper: re-normalizing keeps the netloc component when it does not start
with a second www. label. -/
theorem normNetloc_round (u : Str)
    (h1 : pyStrip (normalizeUrl u) = normalizeUrl u)
    (h2 : ¬ (normNetloc u).take 4 = str ("www.")) :
    normNetloc (normalizeUrl u) = normNetloc u := by
  show (if (lowerS ((normParsed (normalizeUrl u)).netloc)).take 4 = str ("www.")
      then (lowerS ((normParsed (normalizeUrl u)).netloc)).drop 4
      else lowerS ((normParsed (normalizeUrl u)).netloc)) = normNetloc u
  rw [show (normParsed (normalizeUrl u)).netloc = normNetloc u from by
    unfold normParsed
    rw [h1, (urlparseF_keep _).2.1, urlsplitF_normalizeUrl]]
  rw [lowerS_normNetloc]
  rw [if_neg h2]

/-- Helper: re-normalizing keeps the path component when the re-parse takes
no params from it. -/
theorem normPath_round (u : Str)
    (h1 : pyStrip (normalizeUrl u) = normalizeUrl u)
    (h3 : (urlparseF (normalizeUrl u)).path = (urlsplitF (normalizeUrl u)).path) :
    normPath (normalizeUrl u) = normPath u := by
  show pyRstrip ['/'] ((normParsed (normalizeUrl u)).path) = normPath u
  rw [show (normParsed (normalizeUrl u)).path = normPath u from by
    unfold normParsed
    rw [h1, h3, urlsplitF_normalizeUrl]]
  show pyRstrip ['/'] (pyRstrip ['/'] ((normParsed u).path)) = normPath u
  exact pyRstrip_idem ['/'] ((normParsed u).path)

/-- Helper: re-normalizing keeps the query component. -/
theorem normQuery_round (u : Str)
    (h1 : pyStrip (normalizeUrl u) = normalizeUrl u) :
    normQuery (normalizeUrl u) = normQuery u := by
  have hq := normParsed_round_query u h1
  have hfp := filteredParams_round u h1
  by_cases h : normQuery u = []
  · rw [show normQuery (normalizeUrl u) = [] from by
      unfold normQuery
      rw [hq, if_neg (by simp [h])], h]
  · obtain ⟨hq0, hf0, heq⟩ := normQuery_nonempty u h
    rw [show normQuery (normalizeUrl u) = urlencodeG (filteredParams (normalizeUrl u)) from by
      unfold normQuery
      rw [if_pos (by rw [hq]; exact h), if_pos (by rw [hfp]; exact hf0)]]
    rw [hfp, ← heq]

/-- C6: normalize_url drops the URL fragment entirely, and the query it
retains parses back exactly to the block-list-filtered, name-grouped
parameter dictionary of the input, flattened group by group: every
parameter whose lower-cased name is outside the block list survives, with
value order preserved within each name group. -/
theorem normalizeUrl_filters_tracking (u : Str) :
    (urlsplitF (normalizeUrl u)).fragment = [] ∧
    parseQsl ((urlsplitF (normalizeUrl u)).query) = flattenG (filteredParams u) := by
  refine ⟨?_, ?_⟩
  · rw [urlsplitF_normalizeUrl]
  · rw [urlsplitF_normalizeUrl]
    exact parseQsl_normQuery u

/-- C6 counterexample: grouping by name does not preserve the original
interleaving of repeated names: for a?a=1&b=2&a=3 the retained parameter
list is a=1, a=3, b=2, not the order-preserving filter a=1, b=2, a=3 of the
input parameters that the claim asserts. -/
theorem normalizeUrl_tracking_reorder :
    ¬ parseQsl ((urlsplitF (normalizeUrl (str ("https://example.com/a?a=1&b=2&a=3")))).query) =
      (parseQsl ((urlsplitF (str ("https://example.com/a?a=1&b=2&a=3"))).query)).filter
        (fun kv => !(TRACKING.contains (lowerS kv.1))) := by
  decide

/-- C7: normalize_url is case-selective exactly as claimed (the concrete
pair of the claim normalizes identically), and it is idempotent on every
URL whose normal form is whitespace-stable, whose normalized netloc does
not again start with www., and whose normalized path gives urlparse no
params to split off. -/
theorem normalizeUrl_idem_cond (u : Str)
    (h1 : pyStrip (normalizeUrl u) = normalizeUrl u)
    (h2 : ¬ (normNetloc u).take 4 = str ("www."))
    (h3 : (urlparseF (normalizeUrl u)).path = (urlsplitF (normalizeUrl u)).path) :
    normalizeUrl (normalizeUrl u) = normalizeUrl u ∧
    normalizeUrl (str ("https://WWW.Example.COM/Article/")) =
      normalizeUrl (str ("https://example.com/Article")) := by
  refine ⟨?_, by decide⟩
  rw [show normalizeUrl (normalizeUrl u) = urlunparseF (normScheme (normalizeUrl u))
      (normNetloc (normalizeUrl u)) (normPath (normalizeUrl u)) []
      (normQuery (normalizeUrl u)) [] from rfl]
  rw [normScheme_round u h1, normNetloc_round u h1 h2, normPath_round u h1 h3,
    normQuery_round u h1]
  rfl

/-- C7 counterexample: normalize_url is not idempotent in general; a host
www.www.example.com loses one www. label per application, so the second
application changes the output of the first. -/
theorem normalizeUrl_not_idem :
    ¬ normalizeUrl (normalizeUrl (str ("https://www.www.example.com/page"))) =
      normalizeUrl (str ("https://www.www.example.com/page")) := by
  decide

/-- Witness for C7: a concrete URL satisfying the three stability
hypotheses, on which normalization is indeed idempotent. -/
theorem normalizeUrl_idem_cond_witness :
    (pyStrip (normalizeUrl (str ("https://Example.COM/Dir/Page/?utm_source=x&page=2"))) =
      normalizeUrl (str ("https://Example.COM/Dir/Page/?utm_source=x&page=2"))) ∧
    (¬ (normNetloc (str ("https://Example.COM/Dir/Page/?utm_source=x&page=2"))).take 4 =
      str ("www.")) ∧
    ((urlparseF (normalizeUrl (str ("https://Example.COM/Dir/Page/?utm_source=x&page=2")))).path =
      (urlsplitF (normalizeUrl (str ("https://Example.COM/Dir/Page/?utm_source=x&page=2")))).path) ∧
    normalizeUrl (normalizeUrl (str ("https://Example.COM/Dir/Page/?utm_source=x&page=2"))) =
      normalizeUrl (str ("https://Example.COM/Dir/Page/?utm_source=x&page=2")) :=
  ⟨by decide, by decide, by decide,
    (normalizeUrl_idem_cond (str ("https://Example.COM/Dir/Page/?utm_source=x&page=2"))
      (by decide) (by decide) (by decide)).1⟩

end BioNews
